import Mathlib

/-!
Verification of the Game-of-Life simulation engine (`simulation/src/main.rs`).

The engine stores one packed `u8` per grid cell (bit 0 = alive, bits 1-4 =
cached live-neighbour count), advances generations by scanning a snapshot
of the grid, and repairs neighbour counts incrementally through
`set_cell` / `clear_cell`.

The embedding below follows the source function by function.  Machine
integers are `Nat` with explicit `% 256` where `u8` wrap-around matters.
Code that can panic (the `NeighbourCount::try_from(..).unwrap()` inside
`Cell::neighbours`, reached whenever a stored count field exceeds 8) is
modelled with `Option`: `none` is a panic.  The `u8` subtraction
`neighbour_count - 1` inside `Cell::try_decrement` is modelled with the
release-profile wrapping semantics (a debug build would panic at count 0
instead; either way the operation diverges from the specified saturating
decrement, see the C3 theorem).
-/

namespace Life

/-- A cell is one packed byte: bit 0 = alive, bits 1-4 = neighbour count. -/
abbrev Cell := Nat

/-- Embeds `Cell::is_alive`: bit 0 of the packed byte. -/
def is_alive (c : Cell) : Bool := c &&& 1 != 0

/-- Embeds `Cell::is_empty`: the whole packed byte is zero. -/
def is_empty (c : Cell) : Bool := c == 0

/-- Embeds `Cell::set_alive`: `self.0 |= 0x1`. -/
def set_alive (c : Cell) : Cell := c ||| 1

/-- Embeds `Cell::set_dead`: `self.0 &= !0x1`, i.e. `& 0xfe` on `u8`. -/
def set_dead (c : Cell) : Cell := c &&& 0xfe

/-- The raw neighbour-count bit field of a packed cell: `(byte & 0x1e) >> 1`. -/
def rawNeighbours (c : Cell) : Nat := (c &&& 0x1e) >>> 1

namespace NeighbourCount

/-- Embeds `NeighbourCount::try_from`: accepts exactly the range `0..=8`. -/
def tryFrom (byte : Nat) : Option Nat :=
  if byte ≤ 8 then some byte else none

end NeighbourCount

/-- Embeds `Cell::neighbours`: extracts the count field and validates it
through `NeighbourCount::try_from(count).unwrap()`; the `unwrap` panic on a
count field above 8 is `none`. -/
def neighbours (c : Cell) : Option Nat :=
  NeighbourCount.tryFrom (rawNeighbours c)

/-- Embeds `Cell::try_increment`: if the count is below 8, writes
`(self.0 & 0xe1) | ((count + 1) << 1)` and reports `true`, otherwise
leaves the cell and reports `false`. -/
def try_increment (c : Cell) : Option (Cell × Bool) :=
  (neighbours c).map fun n =>
    if n < 8 then ((c &&& 0xe1) ||| ((n + 1) <<< 1), true) else (c, false)

/-- Embeds `Cell::try_decrement` exactly as written in the source: the guard
is `count < MAX` (8), not `count > 0`, so at count 0 the `u8` subtraction
`count - 1` wraps modulo 256 (release semantics; a debug build panics
there), and at count 8 the cell is left unchanged with result `false`. -/
def try_decrement (c : Cell) : Option (Cell × Bool) :=
  (neighbours c).map fun n =>
    if n < 8 then ((c &&& 0xe1) ||| ((((n + 256) - 1) % 256) <<< 1 % 256), true)
    else (c, false)

/-- Embeds the `TryFrom<u8> for Cell` instance: accepts exactly the byte
range `Cell::MIN ..= Cell::MAX`, i.e. `0 ..= 0b00011111 = 31`. -/
def Cell.tryFrom (byte : Nat) : Option Cell :=
  if byte ≤ 31 then some byte else none

/-- Embeds `struct World`: authoritative cells, scratch copy, dimensions. -/
structure World where
  cells : List Cell
  temp_cells : List Cell
  width : Nat
  height : Nat
deriving DecidableEq

/-- Embeds `World::new`: `width * height` default (all-zero) cells. -/
def World.new (width height : Nat) : World :=
  { cells := List.replicate (width * height) 0
    temp_cells := List.replicate (width * height) 0
    width := width
    height := height }

/-- Embeds `World::is_valid_position`: `none` when the signed coordinates
fall outside `[0,height) x [0,width)`, otherwise the coordinates as `usize`. -/
def is_valid_position (w h : Nat) (ni nj : Int) : Option (Nat × Nat) :=
  if ni < 0 ∨ (h : Int) ≤ ni ∨ nj < 0 ∨ (w : Int) ≤ nj then none
  else some (ni.toNat, nj.toNat)

/-- The neighbour offsets scanned by `set_cell` / `clear_cell`, in source
order (`i_offset` outer loop, `j_offset` inner, `(0,0)` skipped). -/
def offsets : List (Int × Int) :=
  [(-1, -1), (-1, 0), (-1, 1), (0, -1), (0, 1), (1, -1), (1, 0), (1, 1)]

/-- Embeds `World::set_cell`: set the alive bit of cell `(i,j)`, then
`try_increment` every in-bounds grid neighbour. -/
def set_cell (w h : Nat) (cells : List Cell) (i j : Nat) : Option (List Cell) :=
  let cp := i * w + j
  let start := cells.set cp (set_alive (cells.getD cp 0))
  offsets.foldlM
    (fun cs o =>
      match is_valid_position w h ((i : Int) + o.1) ((j : Int) + o.2) with
      | some q => (try_increment (cs.getD (q.1 * w + q.2) 0)).map fun r =>
          cs.set (q.1 * w + q.2) r.1
      | none => some cs)
    start

/-- Embeds `World::clear_cell`: clear the alive bit of cell `(i,j)`, then
`try_decrement` every in-bounds grid neighbour. -/
def clear_cell (w h : Nat) (cells : List Cell) (i j : Nat) : Option (List Cell) :=
  let cp := i * w + j
  let start := cells.set cp (set_dead (cells.getD cp 0))
  offsets.foldlM
    (fun cs o =>
      match is_valid_position w h ((i : Int) + o.1) ((j : Int) + o.2) with
      | some q => (try_decrement (cs.getD (q.1 * w + q.2) 0)).map fun r =>
          cs.set (q.1 * w + q.2) r.1
      | none => some cs)
    start

/-- Embeds `World::cell_state`: 1 if the authoritative cell is alive else 0. -/
def cell_state (wd : World) (i j : Nat) : Nat :=
  if is_alive (wd.cells.getD (i * wd.width + j) 0) then 1 else 0

/-- Embeds `World::random`.  The external `rng` is modelled as a stream
`samples : Nat -> Nat x Nat` giving the `t`-th drawn `(row, col)` pair;
`gen_range` guarantees each drawn pair lies in `[0,height) x [0,width)`,
which theorems assume as a hypothesis.  Exactly `(height * width) / 2`
draws are made; a drawn cell is set only when its raw alive flag is clear. -/
def random (w h : Nat) (samples : Nat → Nat × Nat) : Option World :=
  (List.range ((h * w) / 2)).foldlM
    (fun wd t =>
      let ij := samples t
      if cell_state wd ij.1 ij.2 = 0 then
        (set_cell w h wd.cells ij.1 ij.2).map fun cs => { wd with cells := cs }
      else
        some wd)
    (World.new w h)

/-- A draw notification `canvas.draw_pixel(i, j, colour)`: `(row, col, b)`
with `b = true` for the on colour `Co::FST` and `false` for off `Co::SND`. -/
abbrev Draw := Nat × Nat × Bool

/-- The body of the scan loop of `World::next_generation` at one position:
reads the snapshot `temp`, mutates the authoritative cells `cs`, and
returns the (at most one) draw notification emitted at that position. -/
def stepAt (w h : Nat) (temp cs : List Cell) (p : Nat × Nat) :
    Option (List Cell × Option Draw) :=
  let curr := temp.getD (p.1 * w + p.2) 0
  if is_empty curr then some (cs, none)
  else
    match neighbours curr with
    | none => none
    | some count =>
      if is_alive curr then
        if count ≠ 2 ∧ count ≠ 3 then
          (clear_cell w h cs p.1 p.2).map fun cs' => (cs', some (p.1, p.2, false))
        else some (cs, none)
      else if count = 3 then
        (set_cell w h cs p.1 p.2).map fun cs' => (cs', some (p.1, p.2, true))
      else some (cs, none)

/-- The scan of `next_generation` over a list of positions, threading the
authoritative cells and collecting draw notifications in scan order. -/
def scan (w h : Nat) (temp : List Cell) : List (Nat × Nat) → List Cell →
    Option (List Cell × List Draw)
  | [], cs => some (cs, [])
  | p :: ps, cs =>
    match stepAt w h temp cs p with
    | none => none
    | some r =>
      (scan w h temp ps r.1).map fun r2 => (r2.1, r.2.toList ++ r2.2)

/-- The row-major scan order of `next_generation`: row 0 left to right,
then row 1, and so on. -/
def positions (w h : Nat) : List (Nat × Nat) :=
  (List.range h).flatMap fun i => (List.range w).map fun j => (i, j)

/-- Embeds `World::next_generation`: snapshot the authoritative cells into
`temp_cells`, scan every position of the snapshot in row-major order,
apply the rule, and return the draw notifications in emission order. -/
def next_generation (wd : World) : Option (World × List Draw) :=
  (scan wd.width wd.height wd.cells (positions wd.width wd.height) wd.cells).map
    fun r => ({ wd with cells := r.1, temp_cells := wd.cells }, r.2)

/-! Observation helpers used to state the properties. -/

/-- The alive flag of the cell at position `p` of a row-major grid. -/
def aliveB (w : Nat) (cells : List Cell) (p : Nat × Nat) : Bool :=
  is_alive (cells.getD (p.1 * w + p.2) 0)

/-- The in-bounds grid-adjacent positions of `p`, computed with the code's
own offset table and bounds check. -/
def inBoundsNbrs (w h : Nat) (p : Nat × Nat) : List (Nat × Nat) :=
  offsets.filterMap fun o => is_valid_position w h ((p.1 : Int) + o.1) ((p.2 : Int) + o.2)

/-- The number of alive cells among the in-bounds neighbours of `p`: the
quantity the cached per-cell count field is supposed to equal. -/
def trueCount (w h : Nat) (cells : List Cell) (p : Nat × Nat) : Nat :=
  ((inBoundsNbrs w h p).filter fun q => aliveB w cells q).length

/-- The alive positions of a grid, in row-major order. -/
def alivePositions (w h : Nat) (cells : List Cell) : List (Nat × Nat) :=
  (positions w h).filter fun p => aliveB w cells p

/-- The neighbour-count invariant: every in-bounds cell's stored count
field equals the number of alive cells among its in-bounds neighbours. -/
def countInv (w h : Nat) (cells : List Cell) : Prop :=
  ∀ i < h, ∀ j < w, rawNeighbours (cells.getD (i * w + j) 0) = trueCount w h cells (i, j)

instance (w h : Nat) (cells : List Cell) : Decidable (countInv w h cells) := by
  unfold countInv; infer_instance

/-- The byte written by a successful increment: the source expression
`(self.0 & 0xe1) | ((neighbour_count + 1) << 1)`. -/
def incCell (c : Cell) : Cell := (c &&& 0xe1) ||| ((rawNeighbours c + 1) <<< 1)

/-- The byte written by a decrement whose count was at least 1 (so the
`u8` subtraction does not wrap): `(self.0 & 0xe1) | ((count - 1) << 1)`. -/
def decCell (c : Cell) : Cell := (c &&& 0xe1) ||| ((rawNeighbours c - 1) <<< 1)

/-- The stored neighbour-count field of the cell at position `p`. -/
def rawAt (w : Nat) (cs : List Cell) (p : Nat × Nat) : Nat :=
  rawNeighbours (cs.getD (p.1 * w + p.2) 0)

/-- Every cell byte of the grid fits in a `u8`. -/
def Bounded (cs : List Cell) : Prop := ∀ c ∈ cs, c < 256

instance (cs : List Cell) : Decidable (Bounded cs) := by
  unfold Bounded; infer_instance

/-- The relaxed count invariant maintained during a scan: every in-bounds
cell's stored count is between its actual live-neighbour count and 8. -/
def relInv (w h : Nat) (cs : List Cell) : Prop :=
  ∀ p : Nat × Nat, p.1 < h → p.2 < w →
    trueCount w h cs p ≤ rawAt w cs p ∧ rawAt w cs p ≤ 8

/-- The classic Life law applied to one snapshot cell: next alive flag as a
function of the snapshot's alive flag and stored count. -/
def lifeRule (c : Cell) : Bool :=
  if is_alive c then (rawNeighbours c == 2 || rawNeighbours c == 3)
  else rawNeighbours c == 3

/-- The draw notification `next_generation` emits at position `p`, as a
function of the snapshot cell there (`none` when the cell keeps its state). -/
def drawOf (w : Nat) (temp : List Cell) (p : Nat × Nat) : Option Draw :=
  let c := temp.getD (p.1 * w + p.2) 0
  if is_alive c then
    if rawNeighbours c ≠ 2 ∧ rawNeighbours c ≠ 3 then some (p.1, p.2, false) else none
  else if rawNeighbours c = 3 then some (p.1, p.2, true) else none

/-! Concrete runs used by individual claims. -/

/-- Sample stream seeding a horizontal blinker on a 3x3 grid: the four
draws of `random 3 3` are `(1,0), (1,1), (1,2)` and then a duplicate
`(1,1)`, which the seeding loop absorbs because the cell is already alive. -/
def blinkSamples : Nat → Nat × Nat :=
  fun t => [(1, 0), (1, 1), (1, 2), (1, 1)].getD t (0, 0)

/-- Two generations of the blinker: the alive positions after one call,
the notifications of that call, and the alive positions after a second. -/
def blinkerRun : Option (List (Nat × Nat) × List Draw × List (Nat × Nat)) :=
  (random 3 3 blinkSamples).bind fun wd =>
    (next_generation wd).bind fun r =>
      (next_generation r.1).map fun r2 =>
        (alivePositions 3 3 r.1.cells, r.2, alivePositions 3 3 r2.1.cells)

/-- Sample stream seeding the 8-cell ring around position `(1,1)` on a 4x4
grid; `random 4 4` makes exactly `(4*4)/2 = 8` draws, all distinct. -/
def ringSamples : Nat → Nat × Nat :=
  fun t => [(0, 0), (0, 1), (0, 2), (1, 0), (1, 2), (2, 0), (2, 1), (2, 2)].getD t (0, 0)

/-- The ring world, one generation in: stored count field and actual live
neighbour count of cell `(1,1)` (flat index 5) before and after the call. -/
def ringRun : Option ((Nat × Nat) × (Nat × Nat)) :=
  (random 4 4 ringSamples).bind fun wd =>
    (next_generation wd).map fun r =>
      ((rawNeighbours (wd.cells.getD 5 0), trueCount 4 4 wd.cells (1, 1)),
       (rawNeighbours (r.1.cells.getD 5 0), trueCount 4 4 r.1.cells (1, 1)))

/-- C1: the neighbour-count invariant is NOT preserved by the code.  On the
4x4 board seeded by `random` with the 8 distinct ring draws, cell `(1,1)`
starts with stored count 8 matching its 8 alive neighbours, but after one
`next_generation` call its stored count is still 8 while only 4 of its
neighbours are alive: `Cell::try_decrement` guards `count < MAX` (a copy of
the increment's guard) instead of `count > 0`, so a count of 8 can never be
decremented.  This theorem evaluates the code at that failing input. -/
theorem c1_invariant_violated_on_ring : ringRun = some ((8, 8), (8, 4)) := by decide

/-- C3: `try_decrement` is NOT a saturating decrement with floor 0.  At
count 0 (cell byte `0x00`) it wraps: the `u8` subtraction `0 - 1` yields
255 in a release build (a debug build panics), the cell byte becomes
`0xfe` (count field 15, out of range) and the reported result is `true`;
the claim demands `false` with the cell unchanged.  At count 8 (cell byte
`0x10`) it refuses and returns `false`; the claim demands a decrement to 7
with result `true`. -/
theorem c3_try_decrement_wraps_and_refuses :
    try_decrement 0 = some (254, true) ∧ rawNeighbours 254 = 15 ∧
      try_decrement 16 = some (16, false) := by decide

/-- C4 counterexample: constructing a `Cell` from byte 18 (binary
`0b10010`: alive bit clear, count field 9 > 8) SUCCEEDS, because
`Cell::try_from` accepts every byte in `0..=31` and never inspects the
count field; the claim that such bytes are rejected is false. -/
theorem c4_cex_byte18_accepted :
    Cell.tryFrom 18 = some 18 ∧ rawNeighbours 18 = 9 ∧
      NeighbourCount.tryFrom 9 = none := by decide

/-- C4 amended: `Cell` construction from a raw byte fails with a range
error exactly when the byte exceeds `Cell::MAX = 31`; every byte up to 31
is accepted unchanged (no truncation), even when its count field is in
`9..=15`.  Counts above 8 are rejected only by `NeighbourCount`
construction (hit later, inside `Cell::neighbours`). -/
theorem c4_cell_tryFrom_range (b : Nat) :
    (b ≤ 31 → Cell.tryFrom b = some b) ∧ (31 < b → Cell.tryFrom b = none) := by
  refine ⟨fun hb => ?_, fun hb => ?_⟩
  · simp [Cell.tryFrom, hb]
  · simp only [Cell.tryFrom, if_neg (by omega : ¬ b ≤ 31)]

theorem c4_cell_tryFrom_range_witness :
    Cell.tryFrom 18 = some 18 ∧ Cell.tryFrom 40 = none :=
  ⟨(c4_cell_tryFrom_range 18).1 (by decide), (c4_cell_tryFrom_range 40).2 (by decide)⟩

/-- C5: on the 3x3 board whose alive cells are exactly the horizontal
blinker `(1,0), (1,1), (1,2)` (seeded through `random`, so all neighbour
counts are consistent), one `next_generation` call leaves exactly the
vertical blinker `(0,1), (1,1), (2,1)` alive and emits exactly four draws,
in scan order: on at `(0,1)`, off at `(1,0)`, off at `(1,2)`, on at
`(2,1)`; a second call restores the horizontal blinker. -/
theorem c5_blinker_oscillates :
    blinkerRun = some ([(0, 1), (1, 1), (2, 1)],
      [(0, 1, true), (1, 0, false), (1, 2, false), (2, 1, true)],
      [(1, 0), (1, 1), (1, 2)]) := by decide

set_option maxRecDepth 4096 in
/-- C8: over the whole `u8` range, `set_alive` and `set_dead` change only
the alive bit: bit 0 becomes 1 (resp. 0), while all higher bits — in
particular the count field — are untouched.  Both operations are plain
total bit operations in the source (no `Option`/`Result`), so neither can
fail; the theorem also shows the result stays a `u8`. -/
theorem c8_set_alive_dead_touch_only_bit0 :
    ∀ c < 256, set_alive c >>> 1 = c >>> 1 ∧ set_alive c &&& 1 = 1 ∧
      rawNeighbours (set_alive c) = rawNeighbours c ∧ set_alive c < 256 ∧
      set_dead c >>> 1 = c >>> 1 ∧ set_dead c &&& 1 = 0 ∧
      rawNeighbours (set_dead c) = rawNeighbours c ∧ set_dead c < 256 := by decide

theorem c8_set_alive_dead_touch_only_bit0_witness :
    (9 : Nat) < 256 ∧
      (set_alive 9 >>> 1 = 9 >>> 1 ∧ set_alive 9 &&& 1 = 1 ∧
        rawNeighbours (set_alive 9) = rawNeighbours 9 ∧ set_alive 9 < 256 ∧
        set_dead 9 >>> 1 = 9 >>> 1 ∧ set_dead 9 &&& 1 = 0 ∧
        rawNeighbours (set_dead 9) = rawNeighbours 9 ∧ set_dead 9 < 256) :=
  ⟨by decide, c8_set_alive_dead_touch_only_bit0 9 (by decide)⟩

/-- C10: a degenerate grid (zero width or zero height) is well-defined:
`World::new` allocates `width * height = 0` cells, and `next_generation`
on such a board scans zero positions, terminates normally with the world
unchanged (scratch copy included) and emits no draw notifications. -/
theorem c10_degenerate_world_is_trivial (w h : Nat) (hwh : w = 0 ∨ h = 0) :
    (World.new w h).cells = [] ∧
      next_generation (World.new w h) = some (World.new w h, []) := by
  have hmul : w * h = 0 := by rcases hwh with h0 | h0 <;> simp [h0]
  have hpos : positions w h = [] := by
    rcases hwh with h0 | h0 <;> subst h0 <;> simp [positions]
  refine ⟨by simp [World.new, hmul], ?_⟩
  simp [next_generation, World.new, hpos, scan]

theorem c10_degenerate_world_is_trivial_witness :
    (World.new 0 3).cells = [] ∧
      next_generation (World.new 0 3) = some (World.new 0 3, []) :=
  c10_degenerate_world_is_trivial 0 3 (Or.inl rfl)

/-! Cell-level facts, settled over the whole `u8` range. -/

set_option maxRecDepth 8192 in
theorem cell_inc_lt : ∀ c < 256, rawNeighbours c < 8 →
    try_increment c = some (incCell c, true) ∧ incCell c < 256 ∧
      is_alive (incCell c) = is_alive c ∧
      rawNeighbours (incCell c) = rawNeighbours c + 1 := by decide

set_option maxRecDepth 8192 in
theorem cell_inc_eq : ∀ c < 256, rawNeighbours c = 8 →
    try_increment c = some (c, false) := by decide

set_option maxRecDepth 8192 in
theorem cell_dec_mid : ∀ c < 256, 1 ≤ rawNeighbours c ∧ rawNeighbours c < 8 →
    try_decrement c = some (decCell c, true) ∧ decCell c < 256 ∧
      is_alive (decCell c) = is_alive c ∧
      rawNeighbours (decCell c) = rawNeighbours c - 1 := by decide

set_option maxRecDepth 8192 in
theorem cell_dec_eq : ∀ c < 256, rawNeighbours c = 8 →
    try_decrement c = some (c, false) := by decide

set_option maxRecDepth 8192 in
theorem cell_set_alive_spec : ∀ c < 256, set_alive c < 256 ∧
    is_alive (set_alive c) = true ∧
    rawNeighbours (set_alive c) = rawNeighbours c := by decide

set_option maxRecDepth 8192 in
theorem cell_set_dead_spec : ∀ c < 256, set_dead c < 256 ∧
    is_alive (set_dead c) = false ∧
    rawNeighbours (set_dead c) = rawNeighbours c := by decide

theorem cell_neighbours_some {c : Cell} (hc : rawNeighbours c ≤ 8) :
    neighbours c = some (rawNeighbours c) := by
  simp [neighbours, NeighbourCount.tryFrom, hc]

theorem is_empty_iff {c : Cell} : is_empty c = true ↔ c = 0 := by
  simp [is_empty]

/-! List access helpers. -/

theorem getD_set_self {l : List Cell} {k : Nat} (v : Cell) (hk : k < l.length) :
    (l.set k v).getD k 0 = v := by
  simp [List.getD_eq_getElem?_getD, List.getElem?_set_self', List.getElem?_eq_getElem hk]

theorem getD_set_ne {l : List Cell} {k m : Nat} (v : Cell) (h : k ≠ m) :
    (l.set k v).getD m 0 = l.getD m 0 := by
  simp [List.getD_eq_getElem?_getD, List.getElem?_set_ne h]

theorem getD_lt_of_bounded {l : List Cell} (hb : Bounded l) (n : Nat) :
    l.getD n 0 < 256 := by
  by_cases hn : n < l.length
  · have : l.getD n 0 = l[n] := by
      simp [List.getD_eq_getElem?_getD, List.getElem?_eq_getElem hn]
    rw [this]
    exact hb _ (List.getElem_mem hn)
  · rw [List.getD_eq_getElem?_getD, List.getElem?_eq_none (by omega)]
    decide

theorem bounded_set {l : List Cell} {v : Cell} (hb : Bounded l) (hv : v < 256) {k : Nat} :
    Bounded (l.set k v) := by
  intro c hc
  rcases List.mem_or_eq_of_mem_set hc with h | rfl
  · exact hb _ h
  · exact hv

/-! Row-major flat indexing. -/

theorem flat_inj {w i1 j1 i2 j2 : Nat} (hj1 : j1 < w) (hj2 : j2 < w)
    (heq : i1 * w + j1 = i2 * w + j2) : i1 = i2 ∧ j1 = j2 := by
  have hw : 0 < w := Nat.lt_of_le_of_lt (Nat.zero_le _) hj1
  have h1 : (i1 * w + j1) / w = i1 := by
    rw [Nat.mul_comm i1 w, Nat.mul_add_div hw, Nat.div_eq_of_lt hj1, Nat.add_zero]
  have h2 : (i2 * w + j2) / w = i2 := by
    rw [Nat.mul_comm i2 w, Nat.mul_add_div hw, Nat.div_eq_of_lt hj2, Nat.add_zero]
  have hi : i1 = i2 := by rw [← h1, ← h2, heq]
  refine ⟨hi, ?_⟩
  subst hi
  omega

theorem flat_lt {w h a b : Nat} (ha : a < h) (hb : b < w) : a * w + b < h * w :=
  calc a * w + b < a * w + w := Nat.add_lt_add_left hb _
  _ = (a + 1) * w := by ring
  _ ≤ h * w := Nat.mul_le_mul_right w (by omega)

/-! Characterizations of the scan order and the neighbourhood geometry. -/

theorem mem_positions {w h : Nat} {p : Nat × Nat} :
    p ∈ positions w h ↔ p.1 < h ∧ p.2 < w := by
  rcases p with ⟨a, b⟩
  simp only [positions, List.mem_flatMap, List.mem_map, List.mem_range]
  constructor
  · rintro ⟨i, hi, j, hj, hEq⟩
    cases hEq
    exact ⟨hi, hj⟩
  · rintro ⟨ha, hb⟩
    exact ⟨a, ha, b, hb, rfl⟩

theorem nodup_positions {w h : Nat} : (positions w h).Nodup := by
  unfold positions
  rw [List.nodup_flatMap]
  refine ⟨fun i _ => ?_, ?_⟩
  · exact (List.nodup_range w).map (fun j j' hEq => congrArg Prod.snd hEq)
  · have hdis : ∀ i i' : Nat, i ≠ i' →
        ((List.range w).map fun j => (i, j)).Disjoint ((List.range w).map fun j => (i', j)) := by
      intro i i' hne q hq hq'
      rcases List.mem_map.mp hq with ⟨j, _, rfl⟩
      rcases List.mem_map.mp hq' with ⟨j', _, hEq⟩
      exact hne (congrArg Prod.fst hEq).symm
    exact List.Pairwise.imp (fun hab => hdis _ _ hab) (List.nodup_range h)

theorem ivp_some_iff {w h : Nat} {ni nj : Int} {q : Nat × Nat} :
    is_valid_position w h ni nj = some q ↔
      0 ≤ ni ∧ ni < (h : Int) ∧ 0 ≤ nj ∧ nj < (w : Int) ∧
        (q.1 : Int) = ni ∧ (q.2 : Int) = nj := by
  rcases q with ⟨a, b⟩
  unfold is_valid_position
  by_cases hc : ni < 0 ∨ (h : Int) ≤ ni ∨ nj < 0 ∨ (w : Int) ≤ nj
  · rw [if_pos hc]
    simp only [reduceCtorEq, false_iff, not_and]
    intro h1 h2 h3 h4
    omega
  · rw [if_neg hc]
    push_neg at hc
    simp only [Option.some.injEq, Prod.mk.injEq]
    omega

theorem ivp_none_iff {w h : Nat} {ni nj : Int} :
    is_valid_position w h ni nj = none ↔
      ni < 0 ∨ (h : Int) ≤ ni ∨ nj < 0 ∨ (w : Int) ≤ nj := by
  unfold is_valid_position
  by_cases hc : ni < 0 ∨ (h : Int) ≤ ni ∨ nj < 0 ∨ (w : Int) ≤ nj
  · rw [if_pos hc]; simpa using hc
  · rw [if_neg hc]; simpa using hc

theorem mem_inBoundsNbrs {w h : Nat} {p q : Nat × Nat} :
    q ∈ inBoundsNbrs w h p ↔
      q.1 < h ∧ q.2 < w ∧
        ((q.1 : Int) - p.1, (q.2 : Int) - p.2) ∈ offsets := by
  unfold inBoundsNbrs
  rw [List.mem_filterMap]
  constructor
  · rintro ⟨o, ho, hivp⟩
    rw [ivp_some_iff] at hivp
    obtain ⟨h1, h2, h3, h4, h5, h6⟩ := hivp
    refine ⟨by omega, by omega, ?_⟩
    have hEq : ((q.1 : Int) - p.1, (q.2 : Int) - p.2) = o := by
      rcases o with ⟨o1, o2⟩
      simp only [Prod.mk.injEq]
      constructor <;> omega
    rw [hEq]
    exact ho
  · rintro ⟨h1, h2, ho⟩
    refine ⟨((q.1 : Int) - p.1, (q.2 : Int) - p.2), ho, ?_⟩
    rw [ivp_some_iff]
    refine ⟨by omega, by omega, by omega, by omega, by omega, by omega⟩

theorem mem_nbrs_bounds {w h : Nat} {p q : Nat × Nat}
    (hq : q ∈ inBoundsNbrs w h p) : q.1 < h ∧ q.2 < w := by
  rcases mem_inBoundsNbrs.mp hq with ⟨h1, h2, _⟩
  exact ⟨h1, h2⟩

set_option maxHeartbeats 1000000 in
theorem mem_nbrs_symm {w h : Nat} {p q : Nat × Nat}
    (hp1 : p.1 < h) (hp2 : p.2 < w) (hq1 : q.1 < h) (hq2 : q.2 < w) :
    q ∈ inBoundsNbrs w h p ↔ p ∈ inBoundsNbrs w h q := by
  rw [mem_inBoundsNbrs, mem_inBoundsNbrs]
  simp only [offsets, List.mem_cons, List.not_mem_nil, or_false, Prod.mk.injEq]
  omega

theorem not_mem_nbrs_self {w h : Nat} {p : Nat × Nat} : p ∉ inBoundsNbrs w h p := by
  rw [mem_inBoundsNbrs]
  rintro ⟨-, -, hmem⟩
  simp only [offsets, List.mem_cons, List.not_mem_nil, or_false, Prod.mk.injEq] at hmem
  omega

theorem nodup_inBoundsNbrs {w h : Nat} {p : Nat × Nat} :
    (inBoundsNbrs w h p).Nodup := by
  unfold inBoundsNbrs
  refine List.Nodup.filterMap ?_ (by decide)
  intro o o' q ho ho'
  rw [Option.mem_def, ivp_some_iff] at ho ho'
  rcases o with ⟨o1, o2⟩
  rcases o' with ⟨o1', o2'⟩
  simp only [Prod.mk.injEq]
  constructor <;> omega

theorem length_nbrs_le {w h : Nat} {p : Nat × Nat} :
    (inBoundsNbrs w h p).length ≤ 8 :=
  Nat.le_trans (List.length_filterMap_le _ _) (by decide)

/-! Counting alive cells in a list when one element's flag flips. -/

theorem filter_length_succ {α : Type} {l : List α} (hl : l.Nodup)
    {f g : α → Bool} {r : α} (hr : r ∈ l) (hfr : f r = false) (hgr : g r = true)
    (hag : ∀ a ∈ l, a ≠ r → f a = g a) :
    (l.filter g).length = (l.filter f).length + 1 := by
  induction l with
  | nil => cases hr
  | cons x xs ih =>
    rcases List.nodup_cons.mp hl with ⟨hx, hxs⟩
    rcases List.mem_cons.mp hr with rfl | hr'
    · have hagree : ∀ a ∈ xs, f a = g a := fun a ha =>
        hag a (List.mem_cons_of_mem _ ha) (fun hEq => hx (hEq ▸ ha))
      rw [List.filter_cons, List.filter_cons, if_pos hgr, if_neg (by simp [hfr]),
        List.length_cons, ← List.filter_congr hagree]
    · have hxr : x ≠ r := fun hEq => hx (hEq ▸ hr')
      have hfg : f x = g x := hag x (List.mem_cons_self _ _) hxr
      have hih := ih hxs hr' (fun a ha hne => hag a (List.mem_cons_of_mem _ ha) hne)
      rw [List.filter_cons, List.filter_cons, ← hfg]
      cases hfx : f x
      · rw [if_neg (by simp), if_neg (by simp)]
        exact hih
      · rw [if_pos rfl, if_pos rfl, List.length_cons, List.length_cons, hih]

theorem filter_length_lt {α : Type} {l : List α} {f : α → Bool} {r : α}
    (hr : r ∈ l) (hfr : f r = false) : (l.filter f).length < l.length := by
  induction l with
  | nil => cases hr
  | cons x xs ih =>
    rcases List.mem_cons.mp hr with rfl | hr'
    · rw [List.filter_cons, hfr]
      simp only [Bool.false_eq_true, if_false, List.length_cons]
      exact Nat.lt_succ_of_le (List.length_filter_le _ _)
    · rw [List.filter_cons]
      cases hfx : f x
      · simp only [Bool.false_eq_true, if_false, List.length_cons]
        exact Nat.lt_succ_of_lt (ih hr')
      · simp only [if_true, List.length_cons]
        exact Nat.succ_lt_succ (ih hr')

theorem one_le_filter_length {α : Type} {l : List α} {f : α → Bool} {r : α}
    (hr : r ∈ l) (hfr : f r = true) : 1 ≤ (l.filter f).length := by
  have : r ∈ l.filter f := List.mem_filter.mpr ⟨hr, hfr⟩
  exact List.length_pos.mpr (List.ne_nil_of_mem this)

theorem trueCount_congr {w h : Nat} {cs1 cs2 : List Cell} (p : Nat × Nat)
    (hsame : ∀ q : Nat × Nat, q.1 < h → q.2 < w → aliveB w cs1 q = aliveB w cs2 q) :
    trueCount w h cs1 p = trueCount w h cs2 p := by
  unfold trueCount
  rw [List.filter_congr (fun q hq => ?_)]
  rcases mem_nbrs_bounds hq with ⟨h1, h2⟩
  exact hsame q h1 h2

theorem trueCount_flip_on {w h : Nat} {cs cs' : List Cell} {r : Nat × Nat}
    (hdead : aliveB w cs r = false) (halive : aliveB w cs' r = true)
    (hother : ∀ q : Nat × Nat, q.1 < h → q.2 < w → q ≠ r → aliveB w cs' q = aliveB w cs q)
    (p : Nat × Nat) :
    trueCount w h cs' p = trueCount w h cs p +
      (if r ∈ inBoundsNbrs w h p then 1 else 0) := by
  unfold trueCount
  by_cases hmem : r ∈ inBoundsNbrs w h p
  · rw [if_pos hmem]
    exact filter_length_succ nodup_inBoundsNbrs hmem hdead halive
      (fun a ha hne => by
        rcases mem_nbrs_bounds ha with ⟨h1, h2⟩
        exact (hother a h1 h2 hne).symm)
  · rw [if_neg hmem, Nat.add_zero]
    rw [List.filter_congr (fun q hq => ?_)]
    rcases mem_nbrs_bounds hq with ⟨h1, h2⟩
    exact hother q h1 h2 (fun hEq => hmem (hEq ▸ hq))

theorem trueCount_flip_off {w h : Nat} {cs cs' : List Cell} {r : Nat × Nat}
    (halive : aliveB w cs r = true) (hdead : aliveB w cs' r = false)
    (hother : ∀ q : Nat × Nat, q.1 < h → q.2 < w → q ≠ r → aliveB w cs' q = aliveB w cs q)
    (p : Nat × Nat) :
    trueCount w h cs' p + (if r ∈ inBoundsNbrs w h p then 1 else 0) =
      trueCount w h cs p := by
  unfold trueCount
  by_cases hmem : r ∈ inBoundsNbrs w h p
  · rw [if_pos hmem]
    exact (filter_length_succ nodup_inBoundsNbrs hmem hdead halive
      (fun a ha hne => by
        rcases mem_nbrs_bounds ha with ⟨h1, h2⟩
        exact (hother a h1 h2 hne))).symm
  · rw [if_neg hmem, Nat.add_zero]
    rw [List.filter_congr (fun q hq => ?_)]
    rcases mem_nbrs_bounds hq with ⟨h1, h2⟩
    exact hother q h1 h2 (fun hEq => hmem (hEq ▸ hq))

/-! Effect of the neighbour-update folds inside `set_cell` / `clear_cell`. -/

theorem ivp_target_inj {w h i j : Nat} {o o' : Int × Int} {q : Nat × Nat}
    (ho : is_valid_position w h ((i : Int) + o.1) ((j : Int) + o.2) = some q)
    (ho' : is_valid_position w h ((i : Int) + o'.1) ((j : Int) + o'.2) = some q) :
    o = o' := by
  rw [ivp_some_iff] at ho ho'
  rcases o with ⟨o1, o2⟩
  rcases o' with ⟨o1', o2'⟩
  simp only [Prod.mk.injEq]
  constructor <;> omega

/-- One generic pass of the 8-offset update loop: `f` is `try_increment` or
`try_decrement`, `step` its action on the stored count, and `P` the
precondition (on the stored count) under which `f` behaves like `step`. -/
theorem nbr_foldlM_spec {w h i j : Nat}
    (f : Cell → Option (Cell × Bool)) (step : Nat → Nat) (P : Nat → Prop)
    (hf : ∀ c : Cell, c < 256 → rawNeighbours c ≤ 8 → P (rawNeighbours c) →
      ∃ cb : Cell × Bool, f c = some cb ∧ cb.1 < 256 ∧
        is_alive cb.1 = is_alive c ∧ rawNeighbours cb.1 = step (rawNeighbours c))
    (hstep_le : ∀ n, n ≤ 8 → P n → step n ≤ 8) :
    ∀ os : List (Int × Int), List.Sublist os offsets →
    ∀ cs : List Cell, cs.length = w * h → Bounded cs →
    (∀ q : Nat × Nat, q.1 < h → q.2 < w → rawAt w cs q ≤ 8) →
    (∀ q ∈ os.filterMap
        (fun o => is_valid_position w h ((i : Int) + o.1) ((j : Int) + o.2)),
      P (rawAt w cs q)) →
    ∃ cs',
      (os.foldlM
        (fun cs o =>
          match is_valid_position w h ((i : Int) + o.1) ((j : Int) + o.2) with
          | some q => (f (cs.getD (q.1 * w + q.2) 0)).map fun r =>
              cs.set (q.1 * w + q.2) r.1
          | none => some cs) cs) = some cs' ∧
      cs'.length = w * h ∧ Bounded cs' ∧
      (∀ q : Nat × Nat, q.1 < h → q.2 < w → aliveB w cs' q = aliveB w cs q) ∧
      (∀ q : Nat × Nat, q.1 < h → q.2 < w →
        rawAt w cs' q =
          if q ∈ os.filterMap
              (fun o => is_valid_position w h ((i : Int) + o.1) ((j : Int) + o.2))
          then step (rawAt w cs q) else rawAt w cs q) := by
  intro os hsub
  induction os with
  | nil =>
    intro cs hlen hb hraw hP
    refine ⟨cs, by simp, hlen, hb, fun q _ _ => rfl, fun q hq1 hq2 => ?_⟩
    simp
  | cons o os' ih =>
    intro cs hlen hb hraw hP
    have hsub' : List.Sublist os' offsets :=
      List.Sublist.trans (List.sublist_cons_self o os') hsub
    have hnodup : (o :: os').Nodup := (by decide : offsets.Nodup).sublist hsub
    have ho_not : o ∉ os' := (List.nodup_cons.mp hnodup).1
    rw [List.foldlM_cons]
    cases hivp : is_valid_position w h ((i : Int) + o.1) ((j : Int) + o.2) with
    | none =>
      have htargets : (o :: os').filterMap
          (fun o => is_valid_position w h ((i : Int) + o.1) ((j : Int) + o.2)) =
          os'.filterMap
          (fun o => is_valid_position w h ((i : Int) + o.1) ((j : Int) + o.2)) := by
        rw [List.filterMap_cons, hivp]
      obtain ⟨cs', hfold, hlen', hb', halive', hraw'⟩ :=
        ih hsub' cs hlen hb hraw (fun q hq => hP q (htargets ▸ hq))
      refine ⟨cs', ?_, hlen', hb', halive', fun q hq1 hq2 => ?_⟩
      · simpa using hfold
      · rw [hraw' q hq1 hq2, htargets]
    | some q0 =>
      have hq0 := ivp_some_iff.mp hivp
      have hq01 : q0.1 < h := by omega
      have hq02 : q0.2 < w := by omega
      have hflat0 : q0.1 * w + q0.2 < cs.length := by
        rw [hlen, Nat.mul_comm w h]
        exact flat_lt hq01 hq02
      have htargets : (o :: os').filterMap
          (fun o => is_valid_position w h ((i : Int) + o.1) ((j : Int) + o.2)) =
          q0 :: os'.filterMap
          (fun o => is_valid_position w h ((i : Int) + o.1) ((j : Int) + o.2)) := by
        rw [List.filterMap_cons, hivp]
      have hq0mem : q0 ∈ (o :: os').filterMap
          (fun o => is_valid_position w h ((i : Int) + o.1) ((j : Int) + o.2)) := by
        rw [htargets]; exact List.mem_cons_self _ _
      set c0 : Cell := cs.getD (q0.1 * w + q0.2) 0 with hc0
      obtain ⟨cb, hfc0, hcb_lt, hcb_alive, hcb_raw⟩ :=
        hf c0 (getD_lt_of_bounded hb _) (hraw q0 hq01 hq02) (hP q0 hq0mem)
      set cs1 : List Cell := cs.set (q0.1 * w + q0.2) cb.1 with hcs1
      have hlen1 : cs1.length = w * h := by rw [hcs1, List.length_set, hlen]
      have hb1 : Bounded cs1 := bounded_set hb hcb_lt
      have hflat_ne : ∀ q : Nat × Nat, q.1 < h → q.2 < w → q ≠ q0 →
          q0.1 * w + q0.2 ≠ q.1 * w + q.2 := by
        intro q hq1 hq2 hne hEq
        rcases flat_inj hq02 hq2 hEq with ⟨he1, he2⟩
        exact hne (Prod.ext he1.symm he2.symm)
      have hget1_self : cs1.getD (q0.1 * w + q0.2) 0 = cb.1 := getD_set_self _ hflat0
      have hget1_ne : ∀ q : Nat × Nat, q.1 < h → q.2 < w → q ≠ q0 →
          cs1.getD (q.1 * w + q.2) 0 = cs.getD (q.1 * w + q.2) 0 := by
        intro q hq1 hq2 hne
        exact getD_set_ne _ (hflat_ne q hq1 hq2 hne)
      have hraw1 : ∀ q : Nat × Nat, q.1 < h → q.2 < w → rawAt w cs1 q ≤ 8 := by
        intro q hq1 hq2
        by_cases hqq : q = q0
        · subst hqq
          rw [rawAt, hget1_self, hcb_raw]
          exact hstep_le _ (hraw q hq1 hq2) (hP q hq0mem)
        · rw [rawAt, hget1_ne q hq1 hq2 hqq]
          exact hraw q hq1 hq2
      have hnot_target : q0 ∉ os'.filterMap
          (fun o => is_valid_position w h ((i : Int) + o.1) ((j : Int) + o.2)) := by
        intro hmem
        rcases List.mem_filterMap.mp hmem with ⟨o', ho'mem, ho'⟩
        exact ho_not ((ivp_target_inj hivp ho') ▸ ho'mem)
      have hP1 : ∀ q ∈ os'.filterMap
          (fun o => is_valid_position w h ((i : Int) + o.1) ((j : Int) + o.2)),
          P (rawAt w cs1 q) := by
        intro q hq
        rcases List.mem_filterMap.mp hq with ⟨o', _, ho'⟩
        have hqb := ivp_some_iff.mp ho'
        have hq1 : q.1 < h := by omega
        have hq2 : q.2 < w := by omega
        have hne : q ≠ q0 := fun hEq => hnot_target (hEq ▸ hq)
        rw [rawAt, hget1_ne q hq1 hq2 hne]
        exact hP q (htargets ▸ List.mem_cons_of_mem _ hq)
      obtain ⟨cs', hfold, hlen', hb', halive', hraw'⟩ := ih hsub' cs1 hlen1 hb1 hraw1 hP1
      have hstep_red : f (cs.getD (q0.1 * w + q0.2) 0) = some cb := by
        rw [← hc0]; exact hfc0
      refine ⟨cs', ?_, hlen', hb', ?_, ?_⟩
      · simp only [hstep_red, Option.map_some', Option.some_bind]
        exact hfold
      · intro q hq1 hq2
        rw [halive' q hq1 hq2]
        by_cases hqq : q = q0
        · subst hqq
          rw [aliveB, aliveB, hget1_self, hcb_alive]
        · rw [aliveB, aliveB, hget1_ne q hq1 hq2 hqq]
      · intro q hq1 hq2
        rw [hraw' q hq1 hq2, htargets]
        by_cases hqq : q = q0
        · subst hqq
          rw [if_pos (List.mem_cons_self _ _), if_neg hnot_target]
          rw [rawAt, hget1_self, hcb_raw]
          rfl
        · have hget : rawAt w cs1 q = rawAt w cs q := by
            rw [rawAt, rawAt, hget1_ne q hq1 hq2 hqq]
          by_cases hmem : q ∈ os'.filterMap
              (fun o => is_valid_position w h ((i : Int) + o.1) ((j : Int) + o.2))
          · rw [if_pos hmem, if_pos (List.mem_cons_of_mem _ hmem), hget]
          · rw [if_neg hmem, if_neg ?_, hget]
            intro hmem'
            rcases List.mem_cons.mp hmem' with hEq | hmem''
            · exact hqq hEq
            · exact hmem hmem''

/-- Full effect of `World::set_cell` on a board whose stored counts are all
at most 8: it succeeds, sets exactly the alive bit of `(i,j)`, and bumps
the stored count of every in-bounds neighbour whose count was below 8. -/
theorem set_cell_spec {w h i j : Nat} (hi : i < h) (hj : j < w)
    {cs : List Cell} (hlen : cs.length = w * h) (hb : Bounded cs)
    (hraw : ∀ q : Nat × Nat, q.1 < h → q.2 < w → rawAt w cs q ≤ 8) :
    ∃ cs', set_cell w h cs i j = some cs' ∧ cs'.length = w * h ∧ Bounded cs' ∧
      aliveB w cs' (i, j) = true ∧
      (∀ q : Nat × Nat, q.1 < h → q.2 < w → q ≠ (i, j) →
        aliveB w cs' q = aliveB w cs q) ∧
      (∀ q : Nat × Nat, q.1 < h → q.2 < w →
        rawAt w cs' q = if q ∈ inBoundsNbrs w h (i, j) ∧ rawAt w cs q < 8
          then rawAt w cs q + 1 else rawAt w cs q) := by
  have hflat : i * w + j < cs.length := by
    rw [hlen, Nat.mul_comm w h]
    exact flat_lt hi hj
  have hc_lt : cs.getD (i * w + j) 0 < 256 := getD_lt_of_bounded hb _
  obtain ⟨hsa_lt, hsa_alive, hsa_raw⟩ := cell_set_alive_spec _ hc_lt
  have hlen_s : (cs.set (i * w + j) (set_alive (cs.getD (i * w + j) 0))).length = w * h := by
    rw [List.length_set, hlen]
  have hb_s : Bounded (cs.set (i * w + j) (set_alive (cs.getD (i * w + j) 0))) :=
    bounded_set hb hsa_lt
  have hflat_ne : ∀ q : Nat × Nat, q.1 < h → q.2 < w → q ≠ (i, j) →
      i * w + j ≠ q.1 * w + q.2 := by
    intro q hq1 hq2 hne hEq
    rcases flat_inj hj hq2 hEq with ⟨he1, he2⟩
    exact hne (Prod.ext he1.symm he2.symm)
  have hgetD_self :
      (cs.set (i * w + j) (set_alive (cs.getD (i * w + j) 0))).getD (i * w + j) 0 =
        set_alive (cs.getD (i * w + j) 0) := getD_set_self _ hflat
  have halive_s : aliveB w (cs.set (i * w + j) (set_alive (cs.getD (i * w + j) 0))) (i, j) = true := by
    show is_alive ((cs.set (i * w + j) (set_alive (cs.getD (i * w + j) 0))).getD (i * w + j) 0) = true
    rw [hgetD_self, hsa_alive]
  have halive_s_ne : ∀ q : Nat × Nat, q.1 < h → q.2 < w → q ≠ (i, j) →
      aliveB w (cs.set (i * w + j) (set_alive (cs.getD (i * w + j) 0))) q = aliveB w cs q := by
    intro q hq1 hq2 hne
    show is_alive _ = is_alive _
    rw [getD_set_ne _ (hflat_ne q hq1 hq2 hne)]
  have hraw_s : ∀ q : Nat × Nat, q.1 < h → q.2 < w →
      rawAt w (cs.set (i * w + j) (set_alive (cs.getD (i * w + j) 0))) q = rawAt w cs q := by
    intro q hq1 hq2
    by_cases hqq : q = (i, j)
    · subst hqq
      show rawNeighbours ((cs.set (i * w + j) (set_alive (cs.getD (i * w + j) 0))).getD (i * w + j) 0) =
        rawNeighbours (cs.getD (i * w + j) 0)
      rw [hgetD_self, hsa_raw]
    · show rawNeighbours _ = rawNeighbours _
      rw [getD_set_ne _ (hflat_ne q hq1 hq2 hqq)]
  have hraw_s8 : ∀ q : Nat × Nat, q.1 < h → q.2 < w →
      rawAt w (cs.set (i * w + j) (set_alive (cs.getD (i * w + j) 0))) q ≤ 8 := by
    intro q hq1 hq2
    rw [hraw_s q hq1 hq2]
    exact hraw q hq1 hq2
  obtain ⟨cs', hfold, hlen', hb', halive', hraw'⟩ :=
    @nbr_foldlM_spec w h i j try_increment
      (fun n => if n < 8 then n + 1 else n) (fun _ => True)
      (by
        intro c hc hr8 _
        by_cases h8 : rawNeighbours c < 8
        · obtain ⟨he, hlt, hal, hr⟩ := cell_inc_lt c hc h8
          refine ⟨(incCell c, true), he, hlt, hal, ?_⟩
          show rawNeighbours (incCell c) =
            if rawNeighbours c < 8 then rawNeighbours c + 1 else rawNeighbours c
          rw [hr, if_pos h8]
        · have h8' : rawNeighbours c = 8 := by omega
          refine ⟨(c, false), cell_inc_eq c hc h8', hc, rfl, ?_⟩
          show rawNeighbours c =
            if rawNeighbours c < 8 then rawNeighbours c + 1 else rawNeighbours c
          rw [if_neg (by omega)])
      (by
        intro n hn _
        show (if n < 8 then n + 1 else n) ≤ 8
        split <;> omega)
      offsets (List.Sublist.refl offsets)
      (cs.set (i * w + j) (set_alive (cs.getD (i * w + j) 0)))
      hlen_s hb_s hraw_s8 (fun q _ => trivial)
  have hnbrs : inBoundsNbrs w h (i, j) =
      offsets.filterMap (fun o => is_valid_position w h ((i : Int) + o.1) ((j : Int) + o.2)) := rfl
  refine ⟨cs', ?_, hlen', hb', ?_, ?_, ?_⟩
  · show offsets.foldlM
        (fun cs o =>
          match is_valid_position w h ((i : Int) + o.1) ((j : Int) + o.2) with
          | some q => (try_increment (cs.getD (q.1 * w + q.2) 0)).map fun r =>
              cs.set (q.1 * w + q.2) r.1
          | none => some cs)
        (cs.set (i * w + j) (set_alive (cs.getD (i * w + j) 0))) = some cs'
    exact hfold
  · rw [halive' (i, j) hi hj, halive_s]
  · intro q hq1 hq2 hne
    rw [halive' q hq1 hq2, halive_s_ne q hq1 hq2 hne]
  · intro q hq1 hq2
    rw [hraw' q hq1 hq2, hraw_s q hq1 hq2, ← hnbrs]
    by_cases hmem : q ∈ inBoundsNbrs w h (i, j)
    · rw [if_pos hmem]
      by_cases h8 : rawAt w cs q < 8
      · rw [if_pos h8, if_pos ⟨hmem, h8⟩]
      · rw [if_neg h8, if_neg (fun hc => h8 hc.2)]
    · rw [if_neg hmem, if_neg (fun hc => hmem hc.1)]

/-- Full effect of `World::clear_cell` on a board whose stored counts are
all at most 8 and whose in-bounds neighbours of `(i,j)` all have a stored
count of at least 1 (so no `u8` wrap occurs): it succeeds, clears exactly
the alive bit of `(i,j)`, and lowers the stored count of every in-bounds
neighbour whose count was below 8 — a neighbour already at 8 is left at 8. -/
theorem clear_cell_spec {w h i j : Nat} (hi : i < h) (hj : j < w)
    {cs : List Cell} (hlen : cs.length = w * h) (hb : Bounded cs)
    (hraw : ∀ q : Nat × Nat, q.1 < h → q.2 < w → rawAt w cs q ≤ 8)
    (hone : ∀ q ∈ inBoundsNbrs w h (i, j), 1 ≤ rawAt w cs q) :
    ∃ cs', clear_cell w h cs i j = some cs' ∧ cs'.length = w * h ∧ Bounded cs' ∧
      aliveB w cs' (i, j) = false ∧
      (∀ q : Nat × Nat, q.1 < h → q.2 < w → q ≠ (i, j) →
        aliveB w cs' q = aliveB w cs q) ∧
      (∀ q : Nat × Nat, q.1 < h → q.2 < w →
        rawAt w cs' q = if q ∈ inBoundsNbrs w h (i, j) ∧ rawAt w cs q < 8
          then rawAt w cs q - 1 else rawAt w cs q) := by
  have hflat : i * w + j < cs.length := by
    rw [hlen, Nat.mul_comm w h]
    exact flat_lt hi hj
  have hc_lt : cs.getD (i * w + j) 0 < 256 := getD_lt_of_bounded hb _
  obtain ⟨hsd_lt, hsd_alive, hsd_raw⟩ := cell_set_dead_spec _ hc_lt
  have hlen_s : (cs.set (i * w + j) (set_dead (cs.getD (i * w + j) 0))).length = w * h := by
    rw [List.length_set, hlen]
  have hb_s : Bounded (cs.set (i * w + j) (set_dead (cs.getD (i * w + j) 0))) :=
    bounded_set hb hsd_lt
  have hflat_ne : ∀ q : Nat × Nat, q.1 < h → q.2 < w → q ≠ (i, j) →
      i * w + j ≠ q.1 * w + q.2 := by
    intro q hq1 hq2 hne hEq
    rcases flat_inj hj hq2 hEq with ⟨he1, he2⟩
    exact hne (Prod.ext he1.symm he2.symm)
  have hgetD_self :
      (cs.set (i * w + j) (set_dead (cs.getD (i * w + j) 0))).getD (i * w + j) 0 =
        set_dead (cs.getD (i * w + j) 0) := getD_set_self _ hflat
  have halive_s : aliveB w (cs.set (i * w + j) (set_dead (cs.getD (i * w + j) 0))) (i, j) = false := by
    show is_alive ((cs.set (i * w + j) (set_dead (cs.getD (i * w + j) 0))).getD (i * w + j) 0) = false
    rw [hgetD_self, hsd_alive]
  have halive_s_ne : ∀ q : Nat × Nat, q.1 < h → q.2 < w → q ≠ (i, j) →
      aliveB w (cs.set (i * w + j) (set_dead (cs.getD (i * w + j) 0))) q = aliveB w cs q := by
    intro q hq1 hq2 hne
    show is_alive _ = is_alive _
    rw [getD_set_ne _ (hflat_ne q hq1 hq2 hne)]
  have hraw_s : ∀ q : Nat × Nat, q.1 < h → q.2 < w →
      rawAt w (cs.set (i * w + j) (set_dead (cs.getD (i * w + j) 0))) q = rawAt w cs q := by
    intro q hq1 hq2
    by_cases hqq : q = (i, j)
    · subst hqq
      show rawNeighbours ((cs.set (i * w + j) (set_dead (cs.getD (i * w + j) 0))).getD (i * w + j) 0) =
        rawNeighbours (cs.getD (i * w + j) 0)
      rw [hgetD_self, hsd_raw]
    · show rawNeighbours _ = rawNeighbours _
      rw [getD_set_ne _ (hflat_ne q hq1 hq2 hqq)]
  have hraw_s8 : ∀ q : Nat × Nat, q.1 < h → q.2 < w →
      rawAt w (cs.set (i * w + j) (set_dead (cs.getD (i * w + j) 0))) q ≤ 8 := by
    intro q hq1 hq2
    rw [hraw_s q hq1 hq2]
    exact hraw q hq1 hq2
  have hnbrs : inBoundsNbrs w h (i, j) =
      offsets.filterMap (fun o => is_valid_position w h ((i : Int) + o.1) ((j : Int) + o.2)) := rfl
  obtain ⟨cs', hfold, hlen', hb', halive', hraw'⟩ :=
    @nbr_foldlM_spec w h i j try_decrement
      (fun n => if n < 8 then n - 1 else n) (fun n => 1 ≤ n)
      (by
        intro c hc hr8 hP
        by_cases h8 : rawNeighbours c < 8
        · obtain ⟨he, hlt, hal, hr⟩ := cell_dec_mid c hc ⟨hP, h8⟩
          refine ⟨(decCell c, true), he, hlt, hal, ?_⟩
          show rawNeighbours (decCell c) =
            if rawNeighbours c < 8 then rawNeighbours c - 1 else rawNeighbours c
          rw [hr, if_pos h8]
        · have h8' : rawNeighbours c = 8 := by omega
          refine ⟨(c, false), cell_dec_eq c hc h8', hc, rfl, ?_⟩
          show rawNeighbours c =
            if rawNeighbours c < 8 then rawNeighbours c - 1 else rawNeighbours c
          rw [if_neg (by omega)])
      (by
        intro n hn _
        show (if n < 8 then n - 1 else n) ≤ 8
        split <;> omega)
      offsets (List.Sublist.refl offsets)
      (cs.set (i * w + j) (set_dead (cs.getD (i * w + j) 0)))
      hlen_s hb_s hraw_s8
      (by
        intro q hq
        rcases List.mem_filterMap.mp hq with ⟨o, _, ho⟩
        have hqb := ivp_some_iff.mp ho
        have hq1 : q.1 < h := by omega
        have hq2 : q.2 < w := by omega
        rw [hraw_s q hq1 hq2]
        exact hone q (hnbrs ▸ hq))
  refine ⟨cs', ?_, hlen', hb', ?_, ?_, ?_⟩
  · show offsets.foldlM
        (fun cs o =>
          match is_valid_position w h ((i : Int) + o.1) ((j : Int) + o.2) with
          | some q => (try_decrement (cs.getD (q.1 * w + q.2) 0)).map fun r =>
              cs.set (q.1 * w + q.2) r.1
          | none => some cs)
        (cs.set (i * w + j) (set_dead (cs.getD (i * w + j) 0))) = some cs'
    exact hfold
  · rw [halive' (i, j) hi hj, halive_s]
  · intro q hq1 hq2 hne
    rw [halive' q hq1 hq2, halive_s_ne q hq1 hq2 hne]
  · intro q hq1 hq2
    rw [hraw' q hq1 hq2, hraw_s q hq1 hq2, ← hnbrs]
    by_cases hmem : q ∈ inBoundsNbrs w h (i, j)
    · rw [if_pos hmem]
      by_cases h8 : rawAt w cs q < 8
      · rw [if_pos h8, if_pos ⟨hmem, h8⟩]
      · rw [if_neg h8, if_neg (fun hc => h8 hc.2)]
    · rw [if_neg hmem, if_neg (fun hc => hmem hc.1)]

/-! Invariant-level corollaries of the `set_cell` / `clear_cell` effects. -/

theorem trueCount_le_eight {w h : Nat} {cs : List Cell} {p : Nat × Nat} :
    trueCount w h cs p ≤ 8 :=
  Nat.le_trans (List.length_filter_le _ _) length_nbrs_le

theorem countInv_iff {w h : Nat} {cs : List Cell} :
    countInv w h cs ↔
      ∀ q : Nat × Nat, q.1 < h → q.2 < w → rawAt w cs q = trueCount w h cs q := by
  constructor
  · intro hI q hq1 hq2
    exact hI q.1 hq1 q.2 hq2
  · intro hI i hi j hj
    exact hI (i, j) hi hj

theorem relInv_of_countInv {w h : Nat} {cs : List Cell} (hI : countInv w h cs) :
    relInv w h cs := by
  intro q hq1 hq2
  rw [countInv_iff.mp hI q hq1 hq2]
  exact ⟨Nat.le_refl _, trueCount_le_eight⟩

/-- `clear_cell` at an alive in-bounds cell keeps the relaxed invariant:
the stored counts stay within `[trueCount, 8]`, the alive bit of `(i,j)`
alone is cleared.  (Exactness can be lost: a neighbour stored at 8 is not
decremented.) -/
theorem clear_cell_relInv {w h i j : Nat} (hi : i < h) (hj : j < w)
    {cs : List Cell} (hlen : cs.length = w * h) (hb : Bounded cs)
    (hrel : relInv w h cs) (halive_p : aliveB w cs (i, j) = true) :
    ∃ cs', clear_cell w h cs i j = some cs' ∧ cs'.length = w * h ∧ Bounded cs' ∧
      relInv w h cs' ∧ aliveB w cs' (i, j) = false ∧
      (∀ q : Nat × Nat, q.1 < h → q.2 < w → q ≠ (i, j) →
        aliveB w cs' q = aliveB w cs q) := by
  have hraw : ∀ q : Nat × Nat, q.1 < h → q.2 < w → rawAt w cs q ≤ 8 :=
    fun q hq1 hq2 => (hrel q hq1 hq2).2
  have hone : ∀ q ∈ inBoundsNbrs w h (i, j), 1 ≤ rawAt w cs q := by
    intro q hq
    rcases mem_nbrs_bounds hq with ⟨hq1, hq2⟩
    have hpq : (i, j) ∈ inBoundsNbrs w h q := (mem_nbrs_symm hi hj hq1 hq2).mp hq
    have htc : 1 ≤ trueCount w h cs q := one_le_filter_length hpq halive_p
    exact Nat.le_trans htc (hrel q hq1 hq2).1
  obtain ⟨cs', heq, hlen', hb', hdead', halive_ne', hraw'⟩ :=
    clear_cell_spec hi hj hlen hb hraw hone
  refine ⟨cs', heq, hlen', hb', ?_, hdead', halive_ne'⟩
  intro q hq1 hq2
  have htc := trueCount_flip_off halive_p hdead' halive_ne' q
  have hr := hraw' q hq1 hq2
  by_cases hqmem : q ∈ inBoundsNbrs w h (i, j)
  · have hpq : (i, j) ∈ inBoundsNbrs w h q :=
      (mem_nbrs_symm hi hj hq1 hq2).mp hqmem
    rw [if_pos hpq] at htc
    have htc1 : 1 ≤ trueCount w h cs q := one_le_filter_length hpq halive_p
    have hle := (hrel q hq1 hq2).1
    have hle8 := (hrel q hq1 hq2).2
    by_cases h8 : rawAt w cs q < 8
    · rw [hr, if_pos ⟨hqmem, h8⟩]
      omega
    · rw [hr, if_neg (fun hc => h8 hc.2)]
      omega
  · have hpq : (i, j) ∉ inBoundsNbrs w h q :=
      fun hc => hqmem ((mem_nbrs_symm hi hj hq1 hq2).mpr hc)
    rw [if_neg hpq, Nat.add_zero] at htc
    rw [hr, if_neg (fun hc => hqmem hc.1), htc]
    exact hrel q hq1 hq2

/-- `set_cell` at a dead in-bounds cell keeps the relaxed invariant and
sets the alive bit of `(i,j)` alone. -/
theorem set_cell_relInv {w h i j : Nat} (hi : i < h) (hj : j < w)
    {cs : List Cell} (hlen : cs.length = w * h) (hb : Bounded cs)
    (hrel : relInv w h cs) (hdead_p : aliveB w cs (i, j) = false) :
    ∃ cs', set_cell w h cs i j = some cs' ∧ cs'.length = w * h ∧ Bounded cs' ∧
      relInv w h cs' ∧ aliveB w cs' (i, j) = true ∧
      (∀ q : Nat × Nat, q.1 < h → q.2 < w → q ≠ (i, j) →
        aliveB w cs' q = aliveB w cs q) := by
  have hraw : ∀ q : Nat × Nat, q.1 < h → q.2 < w → rawAt w cs q ≤ 8 :=
    fun q hq1 hq2 => (hrel q hq1 hq2).2
  obtain ⟨cs', heq, hlen', hb', halive', halive_ne', hraw'⟩ :=
    set_cell_spec hi hj hlen hb hraw
  refine ⟨cs', heq, hlen', hb', ?_, halive', halive_ne'⟩
  intro q hq1 hq2
  have htc := trueCount_flip_on hdead_p halive' halive_ne' q
  have hr := hraw' q hq1 hq2
  by_cases hqmem : q ∈ inBoundsNbrs w h (i, j)
  · have hpq : (i, j) ∈ inBoundsNbrs w h q :=
      (mem_nbrs_symm hi hj hq1 hq2).mp hqmem
    rw [if_pos hpq] at htc
    have htclt : trueCount w h cs q < (inBoundsNbrs w h q).length :=
      filter_length_lt hpq hdead_p
    have htclt8 : trueCount w h cs q < 8 := Nat.lt_of_lt_of_le htclt length_nbrs_le
    have hle := (hrel q hq1 hq2).1
    have hle8 := (hrel q hq1 hq2).2
    by_cases h8 : rawAt w cs q < 8
    · rw [hr, if_pos ⟨hqmem, h8⟩]
      omega
    · rw [hr, if_neg (fun hc => h8 hc.2)]
      omega
  · have hpq : (i, j) ∉ inBoundsNbrs w h q :=
      fun hc => hqmem ((mem_nbrs_symm hi hj hq1 hq2).mpr hc)
    rw [if_neg hpq, Nat.add_zero] at htc
    rw [hr, if_neg (fun hc => hqmem hc.1), htc]
    exact hrel q hq1 hq2

/-- During seeding, `set_cell` at a dead in-bounds cell preserves the EXACT
count invariant: every increment it performs succeeds, because a dead
neighbour keeps every adjacent true count below 8. -/
theorem set_cell_countInv {w h i j : Nat} (hi : i < h) (hj : j < w)
    {cs : List Cell} (hlen : cs.length = w * h) (hb : Bounded cs)
    (hI : countInv w h cs) (hdead_p : aliveB w cs (i, j) = false) :
    ∃ cs', set_cell w h cs i j = some cs' ∧ cs'.length = w * h ∧ Bounded cs' ∧
      countInv w h cs' ∧ aliveB w cs' (i, j) = true ∧
      (∀ q : Nat × Nat, q.1 < h → q.2 < w → q ≠ (i, j) →
        aliveB w cs' q = aliveB w cs q) := by
  have hraw : ∀ q : Nat × Nat, q.1 < h → q.2 < w → rawAt w cs q ≤ 8 := by
    intro q hq1 hq2
    rw [countInv_iff.mp hI q hq1 hq2]
    exact trueCount_le_eight
  obtain ⟨cs', heq, hlen', hb', halive', halive_ne', hraw'⟩ :=
    set_cell_spec hi hj hlen hb hraw
  refine ⟨cs', heq, hlen', hb', countInv_iff.mpr ?_, halive', halive_ne'⟩
  intro q hq1 hq2
  have htc := trueCount_flip_on hdead_p halive' halive_ne' q
  have hr := hraw' q hq1 hq2
  have hIq := countInv_iff.mp hI q hq1 hq2
  by_cases hqmem : q ∈ inBoundsNbrs w h (i, j)
  · have hpq : (i, j) ∈ inBoundsNbrs w h q :=
      (mem_nbrs_symm hi hj hq1 hq2).mp hqmem
    rw [if_pos hpq] at htc
    have htclt : trueCount w h cs q < (inBoundsNbrs w h q).length :=
      filter_length_lt hpq hdead_p
    have htclt8 : trueCount w h cs q < 8 := Nat.lt_of_lt_of_le htclt length_nbrs_le
    rw [hr, if_pos ⟨hqmem, by omega⟩, htc, hIq]
  · have hpq : (i, j) ∉ inBoundsNbrs w h q :=
      fun hc => hqmem ((mem_nbrs_symm hi hj hq1 hq2).mpr hc)
    rw [if_neg hpq, Nat.add_zero] at htc
    rw [hr, if_neg (fun hc => hqmem hc.1), htc, hIq]

/-- One scan-loop iteration of `next_generation`: on a board satisfying the
relaxed invariant, whose cell at `p` still agrees with the snapshot, the
step succeeds, emits exactly `drawOf` at `p`, rewrites `p`'s alive bit to
the Life rule of the snapshot cell, and touches no other alive bit. -/
theorem stepAt_spec {w h : Nat} {temp cs : List Cell} {p : Nat × Nat}
    (hp1 : p.1 < h) (hp2 : p.2 < w)
    (hlen : cs.length = w * h) (hb : Bounded cs) (hrel : relInv w h cs)
    (hfresh : aliveB w cs p = aliveB w temp p)
    (hraw8 : rawAt w temp p ≤ 8) :
    ∃ cs1, stepAt w h temp cs p = some (cs1, drawOf w temp p) ∧
      cs1.length = w * h ∧ Bounded cs1 ∧ relInv w h cs1 ∧
      aliveB w cs1 p = lifeRule (temp.getD (p.1 * w + p.2) 0) ∧
      (∀ q : Nat × Nat, q.1 < h → q.2 < w → q ≠ p → aliveB w cs1 q = aliveB w cs q) := by
  obtain ⟨pi, pj⟩ := p
  simp only at hp1 hp2
  have hfresh' : aliveB w cs (pi, pj) = is_alive (temp.getD (pi * w + pj) 0) := hfresh
  have hraw8' : rawNeighbours (temp.getD (pi * w + pj) 0) ≤ 8 := hraw8
  by_cases hemp : temp.getD (pi * w + pj) 0 = 0
  · refine ⟨cs, ?_, hlen, hb, hrel, ?_, fun q _ _ _ => rfl⟩
    · have hDraw : drawOf w temp (pi, pj) = none := by
        simp only [drawOf, hemp]
        rfl
      rw [hDraw]
      simp only [stepAt, hemp]
      rfl
    · rw [hfresh', hemp]
      rfl
  · have hne : is_empty (temp.getD (pi * w + pj) 0) = false := by
      simp only [is_empty]
      exact beq_eq_false_iff_ne.mpr hemp
    have hnbr : neighbours (temp.getD (pi * w + pj) 0) =
        some (rawNeighbours (temp.getD (pi * w + pj) 0)) := cell_neighbours_some hraw8'
    by_cases halv : is_alive (temp.getD (pi * w + pj) 0) = true
    · by_cases hrule : rawNeighbours (temp.getD (pi * w + pj) 0) ≠ 2 ∧
          rawNeighbours (temp.getD (pi * w + pj) 0) ≠ 3
      · obtain ⟨cs1, hceq, hlen1, hb1, hrel1, hdead1, hother1⟩ :=
          clear_cell_relInv hp1 hp2 hlen hb hrel (by rw [hfresh']; exact halv)
        refine ⟨cs1, ?_, hlen1, hb1, hrel1, ?_, hother1⟩
        · have hDraw : drawOf w temp (pi, pj) = some (pi, pj, false) := by
            simp only [drawOf]
            rw [if_pos halv, if_pos hrule]
          rw [hDraw]
          simp only [stepAt, hne, hnbr, Bool.false_eq_true, if_false]
          rw [if_pos halv, if_pos hrule, hceq]
          rfl
        · rw [hdead1]
          simp only [lifeRule, if_pos halv]
          have h2 : (rawNeighbours (temp.getD (pi * w + pj) 0) == 2) = false :=
            beq_eq_false_iff_ne.mpr hrule.1
          have h3 : (rawNeighbours (temp.getD (pi * w + pj) 0) == 3) = false :=
            beq_eq_false_iff_ne.mpr hrule.2
          rw [h2, h3]
          rfl
      · refine ⟨cs, ?_, hlen, hb, hrel, ?_, fun q _ _ _ => rfl⟩
        · have hDraw : drawOf w temp (pi, pj) = none := by
            simp only [drawOf]
            rw [if_pos halv, if_neg hrule]
          rw [hDraw]
          simp only [stepAt, hne, hnbr, Bool.false_eq_true, if_false]
          rw [if_pos halv, if_neg hrule]
        · push_neg at hrule
          rw [hfresh', halv]
          simp only [lifeRule, if_pos halv]
          by_cases h2 : rawNeighbours (temp.getD (pi * w + pj) 0) = 2
          · rw [h2]
            rfl
          · rw [hrule h2]
            rfl
    · have halv' : is_alive (temp.getD (pi * w + pj) 0) = false :=
        Bool.eq_false_iff.mpr halv
      by_cases h3 : rawNeighbours (temp.getD (pi * w + pj) 0) = 3
      · obtain ⟨cs1, hseq, hlen1, hb1, hrel1, halive1, hother1⟩ :=
          set_cell_relInv hp1 hp2 hlen hb hrel (by rw [hfresh']; exact halv')
        refine ⟨cs1, ?_, hlen1, hb1, hrel1, ?_, hother1⟩
        · have hDraw : drawOf w temp (pi, pj) = some (pi, pj, true) := by
            simp only [drawOf]
            rw [if_neg (by rw [halv']; exact Bool.false_ne_true), if_pos h3]
          rw [hDraw]
          simp only [stepAt, hne, hnbr, Bool.false_eq_true, if_false]
          rw [if_neg (by rw [halv']; exact Bool.false_ne_true), if_pos h3, hseq]
          rfl
        · rw [halive1]
          simp only [lifeRule, halv', Bool.false_eq_true, if_false]
          rw [h3]
          rfl
      · refine ⟨cs, ?_, hlen, hb, hrel, ?_, fun q _ _ _ => rfl⟩
        · have hDraw : drawOf w temp (pi, pj) = none := by
            simp only [drawOf]
            rw [if_neg (by rw [halv']; exact Bool.false_ne_true), if_neg h3]
          rw [hDraw]
          simp only [stepAt, hne, hnbr, Bool.false_eq_true, if_false]
          rw [if_neg (by rw [halv']; exact Bool.false_ne_true), if_neg h3]
        · rw [hfresh', halv']
          simp only [lifeRule, halv', Bool.false_eq_true, if_false]
          exact (beq_eq_false_iff_ne.mpr h3).symm

/-- The whole scan of `next_generation` over a duplicate-free list of
in-bounds positions: it succeeds, keeps the relaxed invariant, emits
exactly the `drawOf` notifications in scan order, rewrites the alive bit
of every scanned position to the Life rule of its snapshot cell, and
leaves every unscanned alive bit unchanged. -/
theorem scan_spec {w h : Nat} {temp : List Cell} :
    ∀ ps : List (Nat × Nat), (∀ p ∈ ps, p.1 < h ∧ p.2 < w) → ps.Nodup →
    ∀ cs : List Cell, cs.length = w * h → Bounded cs → relInv w h cs →
    (∀ p ∈ ps, aliveB w cs p = aliveB w temp p) →
    (∀ p ∈ ps, rawAt w temp p ≤ 8) →
    ∃ cs' ds, scan w h temp ps cs = some (cs', ds) ∧
      cs'.length = w * h ∧ Bounded cs' ∧ relInv w h cs' ∧
      ds = ps.filterMap (drawOf w temp) ∧
      (∀ p : Nat × Nat, p.1 < h → p.2 < w →
        aliveB w cs' p =
          if p ∈ ps then lifeRule (temp.getD (p.1 * w + p.2) 0)
          else aliveB w cs p) := by
  intro ps
  induction ps with
  | nil =>
    intro _ _ cs hlen hb hrel _ _
    refine ⟨cs, [], rfl, hlen, hb, hrel, rfl, fun p h1 h2 => ?_⟩
    rw [if_neg (List.not_mem_nil p)]
  | cons p ps' ih =>
    intro hbnd hnodup cs hlen hb hrel hfresh hraw8
    have hp := hbnd p (List.mem_cons_self _ _)
    obtain ⟨cs1, hstep, hlen1, hb1, hrel1, halive_p, hother⟩ :=
      stepAt_spec hp.1 hp.2 hlen hb hrel (hfresh p (List.mem_cons_self _ _))
        (hraw8 p (List.mem_cons_self _ _))
    have hnodup' := (List.nodup_cons.mp hnodup).2
    have hpnot := (List.nodup_cons.mp hnodup).1
    have hfresh1 : ∀ q ∈ ps', aliveB w cs1 q = aliveB w temp q := by
      intro q hq
      have hqb := hbnd q (List.mem_cons_of_mem _ hq)
      have hqp : q ≠ p := fun hEq => hpnot (hEq ▸ hq)
      rw [hother q hqb.1 hqb.2 hqp]
      exact hfresh q (List.mem_cons_of_mem _ hq)
    obtain ⟨cs', ds', hscan, hlen', hb', hrel', hds, halive'⟩ :=
      ih (fun q hq => hbnd q (List.mem_cons_of_mem _ hq)) hnodup' cs1 hlen1 hb1 hrel1
        hfresh1 (fun q hq => hraw8 q (List.mem_cons_of_mem _ hq))
    refine ⟨cs', (drawOf w temp p).toList ++ ds', ?_, hlen', hb', hrel', ?_, ?_⟩
    · simp only [scan, hstep, hscan, Option.map_some']
    · rw [hds, List.filterMap_cons]
      cases hdo : drawOf w temp p
      · simp
      · simp
    · intro q hq1 hq2
      rw [halive' q hq1 hq2]
      by_cases hq' : q ∈ ps'
      · rw [if_pos hq', if_pos (List.mem_cons_of_mem _ hq')]
      · rw [if_neg hq']
        by_cases hqp : q = p
        · subst hqp
          rw [if_pos (List.mem_cons_self _ _), halive_p]
        · rw [if_neg (fun hmem => ?_), hother q hq1 hq2 hqp]
          rcases List.mem_cons.mp hmem with hEq | hmem'
          · exact hqp hEq
          · exact hq' hmem'

/-! Draw notifications carry their own position, and each position is
scanned once, so multiplicities in the notification list are 0 or 1. -/

theorem drawOf_some_pos {w : Nat} {temp : List Cell} {q : Nat × Nat} {x : Draw}
    (hx : drawOf w temp q = some x) : x.1 = q.1 ∧ x.2.1 = q.2 := by
  simp only [drawOf] at hx
  split at hx
  · split at hx
    · injection hx with hx'
      subst hx'
      exact ⟨rfl, rfl⟩
    · cases hx
  · split at hx
    · injection hx with hx'
      subst hx'
      exact ⟨rfl, rfl⟩
    · cases hx

theorem count_filterMap_drawOf {w : Nat} {temp : List Cell} :
    ∀ {ps : List (Nat × Nat)}, ps.Nodup → ∀ x : Draw,
      (ps.filterMap (drawOf w temp)).count x =
        if (x.1, x.2.1) ∈ ps ∧ drawOf w temp (x.1, x.2.1) = some x then 1 else 0 := by
  intro ps
  induction ps with
  | nil =>
    intro _ x
    rw [if_neg (fun hc => List.not_mem_nil _ hc.1)]
    rfl
  | cons q ps' ih =>
    intro hnodup x
    have hnodup' := (List.nodup_cons.mp hnodup).2
    have hqnot := (List.nodup_cons.mp hnodup).1
    rw [List.filterMap_cons]
    cases hdo : drawOf w temp q with
    | none =>
      rw [ih hnodup' x]
      by_cases hkq : ((x.1, x.2.1) : Nat × Nat) = q
      · have hfalse : ¬ (drawOf w temp (x.1, x.2.1) = some x) := by
          rw [hkq, hdo]
          exact fun hc => Option.noConfusion hc
        rw [if_neg (fun hc => hfalse hc.2), if_neg (fun hc => hfalse hc.2)]
      · by_cases hmem : (x.1, x.2.1) ∈ ps' ∧ drawOf w temp (x.1, x.2.1) = some x
        · rw [if_pos hmem, if_pos ⟨List.mem_cons_of_mem _ hmem.1, hmem.2⟩]
        · rw [if_neg hmem, if_neg (fun hc => ?_)]
          rcases List.mem_cons.mp hc.1 with hEq | hmem'
          · exact hkq hEq
          · exact hmem ⟨hmem', hc.2⟩
    | some d =>
      rw [List.count_cons, ih hnodup' x]
      have hdq := drawOf_some_pos hdo
      by_cases hxd : x = d
      · subst hxd
        have hkey : ((x.1, x.2.1) : Nat × Nat) = q := Prod.ext hdq.1 hdq.2
        have htail : ¬ ((x.1, x.2.1) ∈ ps' ∧ drawOf w temp (x.1, x.2.1) = some x) :=
          fun hc => hqnot (hkey ▸ hc.1)
        have hcond : (x.1, x.2.1) ∈ q :: ps' ∧ drawOf w temp (x.1, x.2.1) = some x := by
          constructor
          · rw [hkey]
            exact List.mem_cons_self _ _
          · rw [hkey]
            exact hdo
        rw [if_neg htail, if_pos hcond, beq_self_eq_true]
        rfl
      · have hbeq : (d == x) = false :=
          beq_eq_false_iff_ne.mpr (fun hEq => hxd hEq.symm)
        rw [hbeq]
        simp only [Bool.false_eq_true, if_false, Nat.add_zero]
        by_cases hkq : ((x.1, x.2.1) : Nat × Nat) = q
        · have hfalse : ¬ (drawOf w temp (x.1, x.2.1) = some x) := by
            rw [hkq, hdo]
            intro hc
            injection hc with hc'
            exact hxd hc'.symm
          rw [if_neg (fun hc => hfalse hc.2), if_neg (fun hc => hfalse hc.2)]
        · by_cases hmem : (x.1, x.2.1) ∈ ps' ∧ drawOf w temp (x.1, x.2.1) = some x
          · rw [if_pos hmem, if_pos ⟨List.mem_cons_of_mem _ hmem.1, hmem.2⟩]
          · rw [if_neg hmem, if_neg (fun hc => ?_)]
            rcases List.mem_cons.mp hc.1 with hEq | hmem2
            · exact hkq hEq
            · exact hmem ⟨hmem2, hc.2⟩

/-! The grid never resizes: every mutation is a `List.set`. -/

theorem foldlM_cells_length {β : Type} (g : List Cell → β → Option (List Cell))
    (hg : ∀ cs0 b cs1, g cs0 b = some cs1 → cs1.length = cs0.length) :
    ∀ (l : List β) (cs cs' : List Cell),
      List.foldlM g cs l = some cs' → cs'.length = cs.length := by
  intro l
  induction l with
  | nil =>
    intro cs cs' hEq
    injection hEq with h2
    rw [← h2]
  | cons b l ih =>
    intro cs cs' hEq
    rw [List.foldlM_cons] at hEq
    cases hgb : g cs b with
    | none =>
      rw [hgb] at hEq
      cases hEq
    | some cs1 =>
      rw [hgb] at hEq
      replace hEq : List.foldlM g cs1 l = some cs' := hEq
      rw [ih cs1 cs' hEq, hg cs b cs1 hgb]

theorem set_cell_length {w h i j : Nat} {cs cs' : List Cell}
    (hEq : set_cell w h cs i j = some cs') : cs'.length = cs.length := by
  have hfold := foldlM_cells_length
    (fun cs0 o =>
      match is_valid_position w h ((i : Int) + o.1) ((j : Int) + o.2) with
      | some q => (try_increment (cs0.getD (q.1 * w + q.2) 0)).map fun r =>
          cs0.set (q.1 * w + q.2) r.1
      | none => some cs0)
    (by
      intro cs0 o cs1
      show (match is_valid_position w h ((i : Int) + o.1) ((j : Int) + o.2) with
        | some q => (try_increment (cs0.getD (q.1 * w + q.2) 0)).map fun r =>
            cs0.set (q.1 * w + q.2) r.1
        | none => some cs0) = some cs1 → cs1.length = cs0.length
      intro hstep
      cases hivp : is_valid_position w h ((i : Int) + o.1) ((j : Int) + o.2) with
      | none =>
        rw [hivp] at hstep
        simp only [Option.some.injEq] at hstep
        rw [← hstep]
      | some q =>
        rw [hivp] at hstep
        replace hstep : (try_increment (cs0.getD (q.1 * w + q.2) 0)).map
            (fun r => cs0.set (q.1 * w + q.2) r.1) = some cs1 := hstep
        cases hti : try_increment (cs0.getD (q.1 * w + q.2) 0) with
        | none =>
          rw [hti] at hstep
          simp at hstep
        | some r =>
          rw [hti] at hstep
          simp only [Option.map_some', Option.some.injEq] at hstep
          rw [← hstep, List.length_set])
    offsets (cs.set (i * w + j) (set_alive (cs.getD (i * w + j) 0))) cs' hEq
  rw [hfold, List.length_set]

theorem clear_cell_length {w h i j : Nat} {cs cs' : List Cell}
    (hEq : clear_cell w h cs i j = some cs') : cs'.length = cs.length := by
  have hfold := foldlM_cells_length
    (fun cs0 o =>
      match is_valid_position w h ((i : Int) + o.1) ((j : Int) + o.2) with
      | some q => (try_decrement (cs0.getD (q.1 * w + q.2) 0)).map fun r =>
          cs0.set (q.1 * w + q.2) r.1
      | none => some cs0)
    (by
      intro cs0 o cs1
      show (match is_valid_position w h ((i : Int) + o.1) ((j : Int) + o.2) with
        | some q => (try_decrement (cs0.getD (q.1 * w + q.2) 0)).map fun r =>
            cs0.set (q.1 * w + q.2) r.1
        | none => some cs0) = some cs1 → cs1.length = cs0.length
      intro hstep
      cases hivp : is_valid_position w h ((i : Int) + o.1) ((j : Int) + o.2) with
      | none =>
        rw [hivp] at hstep
        simp only [Option.some.injEq] at hstep
        rw [← hstep]
      | some q =>
        rw [hivp] at hstep
        replace hstep : (try_decrement (cs0.getD (q.1 * w + q.2) 0)).map
            (fun r => cs0.set (q.1 * w + q.2) r.1) = some cs1 := hstep
        cases hti : try_decrement (cs0.getD (q.1 * w + q.2) 0) with
        | none =>
          rw [hti] at hstep
          simp at hstep
        | some r =>
          rw [hti] at hstep
          simp only [Option.map_some', Option.some.injEq] at hstep
          rw [← hstep, List.length_set])
    offsets (cs.set (i * w + j) (set_dead (cs.getD (i * w + j) 0))) cs' hEq
  rw [hfold, List.length_set]

theorem stepAt_length {w h : Nat} {temp cs : List Cell} {p : Nat × Nat}
    {cs1 : List Cell} {d : Option Draw}
    (hEq : stepAt w h temp cs p = some (cs1, d)) : cs1.length = cs.length := by
  simp only [stepAt] at hEq
  split at hEq
  · injection hEq with h2
    injection h2 with h3 h4
    rw [← h3]
  · split at hEq
    · cases hEq
    · split at hEq
      · split at hEq
        · cases hcc : clear_cell w h cs p.1 p.2 with
          | none =>
            rw [hcc] at hEq
            cases hEq
          | some cs2 =>
            rw [hcc] at hEq
            simp only [Option.map_some', Option.some.injEq, Prod.mk.injEq] at hEq
            rw [← hEq.1]
            exact clear_cell_length hcc
        · injection hEq with h2
          injection h2 with h3 h4
          rw [← h3]
      · split at hEq
        · cases hsc : set_cell w h cs p.1 p.2 with
          | none =>
            rw [hsc] at hEq
            cases hEq
          | some cs2 =>
            rw [hsc] at hEq
            simp only [Option.map_some', Option.some.injEq, Prod.mk.injEq] at hEq
            rw [← hEq.1]
            exact set_cell_length hsc
        · injection hEq with h2
          injection h2 with h3 h4
          rw [← h3]

theorem scan_length {w h : Nat} {temp : List Cell} :
    ∀ (ps : List (Nat × Nat)) (cs cs' : List Cell) (ds : List Draw),
      scan w h temp ps cs = some (cs', ds) → cs'.length = cs.length := by
  intro ps
  induction ps with
  | nil =>
    intro cs cs' ds hEq
    injection hEq with h2
    injection h2 with h3 h4
    rw [← h3]
  | cons p ps' ih =>
    intro cs cs' ds hEq
    simp only [scan] at hEq
    cases hst : stepAt w h temp cs p with
    | none =>
      rw [hst] at hEq
      cases hEq
    | some r =>
      obtain ⟨csr, dr⟩ := r
      rw [hst] at hEq
      replace hEq : (scan w h temp ps' csr).map
          (fun r2 => (r2.1, dr.toList ++ r2.2)) = some (cs', ds) := hEq
      cases hsc : scan w h temp ps' csr with
      | none =>
        rw [hsc] at hEq
        cases hEq
      | some r2 =>
        obtain ⟨cs2, ds2⟩ := r2
        rw [hsc] at hEq
        simp only [Option.map_some', Option.some.injEq, Prod.mk.injEq] at hEq
        rw [← hEq.1, ih csr cs2 ds2 hsc]
        exact stepAt_length hst

theorem next_generation_dims {wd wd' : World} {ds : List Draw}
    (hEq : next_generation wd = some (wd', ds)) :
    wd'.cells.length = wd.cells.length ∧ wd'.width = wd.width ∧
      wd'.height = wd.height ∧ wd'.temp_cells = wd.cells := by
  simp only [next_generation] at hEq
  cases hsc : scan wd.width wd.height wd.cells (positions wd.width wd.height) wd.cells with
  | none =>
    rw [hsc] at hEq
    cases hEq
  | some r =>
    obtain ⟨cs2, ds2⟩ := r
    rw [hsc] at hEq
    simp only [Option.map_some', Option.some.injEq, Prod.mk.injEq] at hEq
    rw [← hEq.1]
    exact ⟨scan_length _ _ _ _ hsc, rfl, rfl, rfl⟩

/-- `next_generation` on a board satisfying the count invariant: the call
succeeds, the notifications are exactly the row-major `drawOf` list, and
every in-bounds alive bit becomes the Life rule of its snapshot cell. -/
theorem next_generation_spec (wd : World)
    (hlen : wd.cells.length = wd.width * wd.height)
    (hb : Bounded wd.cells)
    (hinv : countInv wd.width wd.height wd.cells) :
    ∃ cs' ds,
      next_generation wd = some ({ wd with cells := cs', temp_cells := wd.cells }, ds) ∧
      cs'.length = wd.width * wd.height ∧ Bounded cs' ∧
      relInv wd.width wd.height cs' ∧
      ds = (positions wd.width wd.height).filterMap (drawOf wd.width wd.cells) ∧
      (∀ p : Nat × Nat, p.1 < wd.height → p.2 < wd.width →
        aliveB wd.width cs' p = lifeRule (wd.cells.getD (p.1 * wd.width + p.2) 0)) := by
  obtain ⟨cs', ds, hscan, hlen', hb', hrel', hds, halive'⟩ :=
    @scan_spec wd.width wd.height wd.cells (positions wd.width wd.height)
      (fun p hp => mem_positions.mp hp) nodup_positions wd.cells hlen hb
      (relInv_of_countInv hinv) (fun p _ => rfl)
      (by
        intro p hp
        rcases mem_positions.mp hp with ⟨h1, h2⟩
        rw [countInv_iff.mp hinv p h1 h2]
        exact trueCount_le_eight)
  refine ⟨cs', ds, ?_, hlen', hb', hrel', hds, ?_⟩
  · simp only [next_generation, hscan, Option.map_some']
  · intro p h1 h2
    rw [halive' p h1 h2, if_pos (mem_positions.mpr ⟨h1, h2⟩)]

/-- Multiplicity of a draw at an in-bounds position in the notification
list of one generation: 1 if `drawOf` fires there with that colour, else 0. -/
theorem count_draw_eval {w h : Nat} {temp : List Cell} {ds : List Draw}
    (hds : ds = (positions w h).filterMap (drawOf w temp))
    {i j : Nat} (hi : i < h) (hj : j < w) (b : Bool) :
    ds.count (i, j, b) = if drawOf w temp (i, j) = some (i, j, b) then 1 else 0 := by
  rw [hds, count_filterMap_drawOf nodup_positions ((i, j, b) : Draw)]
  by_cases hP : drawOf w temp (i, j) = some (i, j, b)
  · rw [if_pos ⟨mem_positions.mpr ⟨hi, hj⟩, hP⟩, if_pos hP]
  · rw [if_neg (fun hc => hP hc.2), if_neg hP]

set_option maxHeartbeats 1000000 in
/-- C2: in one `advance_generation` call on a board satisfying the
neighbour-count invariant (spec section 3 declares it holds between calls),
every position is decided from the snapshot taken at the start of the
call: an alive cell with snapshot count 2 or 3 keeps its alive bit and
emits nothing; an alive cell with any other count has its alive bit
cleared and emits exactly one off draw there; a dead cell with count 3 has
its alive bit set and emits exactly one on draw there; any other dead cell
keeps its alive bit and emits nothing.  ("Left unchanged" is read as the
cell's life state and notifications: its neighbour-count bits may still be
rewritten by the propagation step 3 of spec section 4.2.) -/
theorem c2_rule_followed_per_position (wd : World)
    (hlen : wd.cells.length = wd.width * wd.height)
    (hb : Bounded wd.cells)
    (hinv : countInv wd.width wd.height wd.cells) :
    ∃ wd' ds, next_generation wd = some (wd', ds) ∧
      ∀ i j : Nat, i < wd.height → j < wd.width →
        ((is_alive (wd.cells.getD (i * wd.width + j) 0) = true ∧
            (rawNeighbours (wd.cells.getD (i * wd.width + j) 0) = 2 ∨
             rawNeighbours (wd.cells.getD (i * wd.width + j) 0) = 3)) →
          aliveB wd.width wd'.cells (i, j) = true ∧
          ds.count (i, j, true) = 0 ∧ ds.count (i, j, false) = 0) ∧
        ((is_alive (wd.cells.getD (i * wd.width + j) 0) = true ∧
            ¬(rawNeighbours (wd.cells.getD (i * wd.width + j) 0) = 2 ∨
              rawNeighbours (wd.cells.getD (i * wd.width + j) 0) = 3)) →
          aliveB wd.width wd'.cells (i, j) = false ∧
          ds.count (i, j, false) = 1 ∧ ds.count (i, j, true) = 0) ∧
        ((is_alive (wd.cells.getD (i * wd.width + j) 0) = false ∧
            rawNeighbours (wd.cells.getD (i * wd.width + j) 0) = 3) →
          aliveB wd.width wd'.cells (i, j) = true ∧
          ds.count (i, j, true) = 1 ∧ ds.count (i, j, false) = 0) ∧
        ((is_alive (wd.cells.getD (i * wd.width + j) 0) = false ∧
            rawNeighbours (wd.cells.getD (i * wd.width + j) 0) ≠ 3) →
          aliveB wd.width wd'.cells (i, j) = false ∧
          ds.count (i, j, true) = 0 ∧ ds.count (i, j, false) = 0) := by
  obtain ⟨cs', ds, hng, hlen', hb', hrel', hds, halive'⟩ :=
    next_generation_spec wd hlen hb hinv
  refine ⟨_, ds, hng, ?_⟩
  intro i j hi hj
  have halive := halive' (i, j) hi hj
  have hct := fun b => @count_draw_eval wd.width wd.height wd.cells ds hds i j hi hj b
  refine ⟨?_, ?_, ?_, ?_⟩
  · rintro ⟨hal, h23⟩
    have hD : drawOf wd.width wd.cells (i, j) = none := by
      simp only [drawOf]
      rw [if_pos hal, if_neg (fun hc => ?_)]
      rcases h23 with h2 | h3
      · exact hc.1 h2
      · exact hc.2 h3
    refine ⟨?_, ?_, ?_⟩
    · rw [halive]
      simp only [lifeRule, if_pos hal]
      rcases h23 with h2 | h3
      · rw [h2]
        rfl
      · rw [h3]
        rfl
    · rw [hct true, if_neg (by rw [hD]; exact fun hc => Option.noConfusion hc)]
    · rw [hct false, if_neg (by rw [hD]; exact fun hc => Option.noConfusion hc)]
  · rintro ⟨hal, h23⟩
    push_neg at h23
    have hD : drawOf wd.width wd.cells (i, j) = some (i, j, false) := by
      simp only [drawOf]
      rw [if_pos hal, if_pos h23]
    refine ⟨?_, ?_, ?_⟩
    · rw [halive]
      simp only [lifeRule, if_pos hal]
      rw [beq_eq_false_iff_ne.mpr h23.1, beq_eq_false_iff_ne.mpr h23.2]
      rfl
    · rw [hct false, if_pos (by rw [hD])]
    · rw [hct true, if_neg (by
        rw [hD]
        intro hc
        injection hc with hc'
        have := congrArg (fun y : Draw => y.2.2) hc'
        exact Bool.false_ne_true this)]
  · rintro ⟨hal, h3⟩
    have hD : drawOf wd.width wd.cells (i, j) = some (i, j, true) := by
      simp only [drawOf]
      rw [if_neg (by rw [hal]; exact Bool.false_ne_true), if_pos h3]
    refine ⟨?_, ?_, ?_⟩
    · rw [halive]
      simp only [lifeRule, hal, Bool.false_eq_true, if_false]
      rw [h3]
      rfl
    · rw [hct true, if_pos (by rw [hD])]
    · rw [hct false, if_neg (by
        rw [hD]
        intro hc
        injection hc with hc'
        have := congrArg (fun y : Draw => y.2.2) hc'
        exact Bool.false_ne_true this.symm)]
  · rintro ⟨hal, h3⟩
    have hD : drawOf wd.width wd.cells (i, j) = none := by
      simp only [drawOf]
      rw [if_neg (by rw [hal]; exact Bool.false_ne_true), if_neg h3]
    refine ⟨?_, ?_, ?_⟩
    · rw [halive]
      simp only [lifeRule, hal, Bool.false_eq_true, if_false]
      exact beq_eq_false_iff_ne.mpr h3
    · rw [hct true, if_neg (by rw [hD]; exact fun hc => Option.noConfusion hc)]
    · rw [hct false, if_neg (by rw [hD]; exact fun hc => Option.noConfusion hc)]

theorem c2_rule_followed_per_position_witness :
    (World.new 2 2).cells.length = (World.new 2 2).width * (World.new 2 2).height ∧
    Bounded (World.new 2 2).cells ∧
    countInv (World.new 2 2).width (World.new 2 2).height (World.new 2 2).cells ∧
    (∃ wd' ds, next_generation (World.new 2 2) = some (wd', ds) ∧
      ∀ i j : Nat, i < (World.new 2 2).height → j < (World.new 2 2).width →
        ((is_alive ((World.new 2 2).cells.getD (i * (World.new 2 2).width + j) 0) = true ∧
            (rawNeighbours ((World.new 2 2).cells.getD (i * (World.new 2 2).width + j) 0) = 2 ∨
             rawNeighbours ((World.new 2 2).cells.getD (i * (World.new 2 2).width + j) 0) = 3)) →
          aliveB (World.new 2 2).width wd'.cells (i, j) = true ∧
          ds.count (i, j, true) = 0 ∧ ds.count (i, j, false) = 0) ∧
        ((is_alive ((World.new 2 2).cells.getD (i * (World.new 2 2).width + j) 0) = true ∧
            ¬(rawNeighbours ((World.new 2 2).cells.getD (i * (World.new 2 2).width + j) 0) = 2 ∨
              rawNeighbours ((World.new 2 2).cells.getD (i * (World.new 2 2).width + j) 0) = 3)) →
          aliveB (World.new 2 2).width wd'.cells (i, j) = false ∧
          ds.count (i, j, false) = 1 ∧ ds.count (i, j, true) = 0) ∧
        ((is_alive ((World.new 2 2).cells.getD (i * (World.new 2 2).width + j) 0) = false ∧
            rawNeighbours ((World.new 2 2).cells.getD (i * (World.new 2 2).width + j) 0) = 3) →
          aliveB (World.new 2 2).width wd'.cells (i, j) = true ∧
          ds.count (i, j, true) = 1 ∧ ds.count (i, j, false) = 0) ∧
        ((is_alive ((World.new 2 2).cells.getD (i * (World.new 2 2).width + j) 0) = false ∧
            rawNeighbours ((World.new 2 2).cells.getD (i * (World.new 2 2).width + j) 0) ≠ 3) →
          aliveB (World.new 2 2).width wd'.cells (i, j) = false ∧
          ds.count (i, j, true) = 0 ∧ ds.count (i, j, false) = 0)) :=
  ⟨by decide, by decide, by decide,
    c2_rule_followed_per_position (World.new 2 2) (by decide) (by decide) (by decide)⟩

/-- C6: all grid accesses of `advance_generation` stay inside
`[0,width) x [0,height)`.  (1) `is_valid_position` rejects exactly the
offsets that fall outside the grid — they are skipped, not errors.  (2) An
accepted position is the queried signed position itself (no wrap-around /
toroidal reduction) and its row-major flat index is below `width*height`,
the length of the cell array — so the neighbour updates of `set_cell` /
`clear_cell` only touch in-range indices.  (3) `next_generation` never
changes the cell-array length or the dimensions, so the bound holds across
calls. -/
theorem c6_no_out_of_bounds_access (w h : Nat) (_hw : 0 < w) (_hh : 0 < h) :
    (∀ ni nj : Int, is_valid_position w h ni nj = none ↔
      (ni < 0 ∨ (h : Int) ≤ ni ∨ nj < 0 ∨ (w : Int) ≤ nj)) ∧
    (∀ ni nj : Int, ∀ a b : Nat, is_valid_position w h ni nj = some (a, b) →
      (a : Int) = ni ∧ (b : Int) = nj ∧ a < h ∧ b < w ∧ a * w + b < w * h) ∧
    (∀ wd wd' : World, ∀ ds : List Draw, next_generation wd = some (wd', ds) →
      wd'.cells.length = wd.cells.length ∧ wd'.width = wd.width ∧
        wd'.height = wd.height) := by
  refine ⟨fun ni nj => ivp_none_iff, ?_, ?_⟩
  · intro ni nj a b hEq
    have hc := ivp_some_iff.mp hEq
    refine ⟨by omega, by omega, by omega, by omega, ?_⟩
    have ha : a < h := by omega
    have hb : b < w := by omega
    exact Nat.lt_of_lt_of_le (flat_lt ha hb) (Nat.le_of_eq (Nat.mul_comm h w))
  · intro wd wd' ds hEq
    obtain ⟨h1, h2, h3, _⟩ := next_generation_dims hEq
    exact ⟨h1, h2, h3⟩

theorem c6_no_out_of_bounds_access_witness :
    0 < 3 ∧ 0 < 3 ∧
    ((∀ ni nj : Int, is_valid_position 3 3 ni nj = none ↔
        (ni < 0 ∨ (3 : Int) ≤ ni ∨ nj < 0 ∨ (3 : Int) ≤ nj)) ∧
      (∀ ni nj : Int, ∀ a b : Nat, is_valid_position 3 3 ni nj = some (a, b) →
        (a : Int) = ni ∧ (b : Int) = nj ∧ a < 3 ∧ b < 3 ∧ a * 3 + b < 3 * 3) ∧
      (∀ wd wd' : World, ∀ ds : List Draw, next_generation wd = some (wd', ds) →
        wd'.cells.length = wd.cells.length ∧ wd'.width = wd.width ∧
          wd'.height = wd.height)) :=
  ⟨by decide, by decide, c6_no_out_of_bounds_access 3 3 (by decide) (by decide)⟩

/-! Properties of `World::random` seeding. -/

theorem getD_replicate_zero {n k : Nat} : (List.replicate n (0 : Cell)).getD k 0 = 0 := by
  rw [List.getD_eq_getElem?_getD, List.getElem?_replicate]
  by_cases hk : k < n
  · rw [if_pos hk]
    rfl
  · rw [if_neg hk]
    rfl

theorem new_world_all_dead {w h : Nat} {p : Nat × Nat} :
    aliveB w (World.new w h).cells p = false := by
  show is_alive ((List.replicate (w * h) (0 : Cell)).getD (p.1 * w + p.2) 0) = false
  rw [getD_replicate_zero]
  rfl

theorem new_world_countInv {w h : Nat} : countInv w h (World.new w h).cells := by
  intro i hi j hj
  show rawNeighbours ((List.replicate (w * h) (0 : Cell)).getD (i * w + j) 0) =
    trueCount w h (World.new w h).cells (i, j)
  rw [getD_replicate_zero]
  have hnil : ((inBoundsNbrs w h (i, j)).filter
      fun q => aliveB w (World.new w h).cells q) = [] := by
    rw [List.filter_congr (fun q _ => new_world_all_dead)]
    exact List.filter_false _
  show rawNeighbours 0 = ((inBoundsNbrs w h (i, j)).filter
    fun q => aliveB w (World.new w h).cells q).length
  rw [hnil]
  rfl

theorem new_world_bounded {w h : Nat} : Bounded (World.new w h).cells := by
  intro c hc
  rw [List.eq_of_mem_replicate hc]
  decide

/-- The seeding loop of `World::random` over any sample-index list: it
succeeds, preserves the EXACT count invariant (every increment during
seeding succeeds), and the alive set is the old alive set plus the sampled
positions — a sample hitting an alive cell is skipped. -/
theorem random_fold_spec {w h : Nat} (samples : Nat → Nat × Nat) :
    ∀ ts : List Nat, (∀ t ∈ ts, (samples t).1 < h ∧ (samples t).2 < w) →
    ∀ wd : World, wd.width = w → wd.height = h →
      wd.cells.length = w * h → Bounded wd.cells → countInv w h wd.cells →
    ∃ wd',
      (ts.foldlM
        (fun wd t =>
          let ij := samples t
          if cell_state wd ij.1 ij.2 = 0 then
            (set_cell w h wd.cells ij.1 ij.2).map fun cs => { wd with cells := cs }
          else some wd) wd) = some wd' ∧
      wd'.width = w ∧ wd'.height = h ∧ wd'.cells.length = w * h ∧
      Bounded wd'.cells ∧ countInv w h wd'.cells ∧
      (∀ p : Nat × Nat, p.1 < h → p.2 < w →
        (aliveB w wd'.cells p = true ↔
          (aliveB w wd.cells p = true ∨ p ∈ ts.map samples))) := by
  intro ts
  induction ts with
  | nil =>
    intro _ wd hww hwh hlen hb hI
    refine ⟨wd, rfl, hww, hwh, hlen, hb, hI, fun p h1 h2 => ?_⟩
    simp
  | cons t ts' ih =>
    intro hbnd wd hww hwh hlen hb hI
    have hts := hbnd t (List.mem_cons_self _ _)
    have hstate : cell_state wd (samples t).1 (samples t).2 =
        if aliveB w wd.cells (samples t) = true then 1 else 0 := by
      show (if is_alive (wd.cells.getD ((samples t).1 * wd.width + (samples t).2) 0)
          then 1 else 0) = _
      rw [hww]
      rfl
    rw [List.foldlM_cons]
    by_cases halv : aliveB w wd.cells (samples t) = true
    · have hcs : cell_state wd (samples t).1 (samples t).2 = 1 := by
        rw [hstate, if_pos halv]
      obtain ⟨wd', hfold, hww', hwh', hlen', hb', hI', halive'⟩ :=
        ih (fun u hu => hbnd u (List.mem_cons_of_mem _ hu)) wd hww hwh hlen hb hI
      refine ⟨wd', ?_, hww', hwh', hlen', hb', hI', fun p h1 h2 => ?_⟩
      · have hred : (if cell_state wd (samples t).1 (samples t).2 = 0 then
            (set_cell w h wd.cells (samples t).1 (samples t).2).map
              (fun cs => { wd with cells := cs })
          else some wd) = some wd := by
          rw [if_neg (by rw [hcs]; omega)]
        rw [show (samples t) = ((samples t).1, (samples t).2) from rfl] at hred
        simp only [hred, Option.some_bind]
        exact hfold
      · rw [halive' p h1 h2, List.map_cons, List.mem_cons]
        constructor
        · rintro (ha | hm)
          · exact Or.inl ha
          · exact Or.inr (Or.inr hm)
        · rintro (ha | hp | hm)
          · exact Or.inl ha
          · subst hp
            exact Or.inl halv
          · exact Or.inr hm
    · have halv' : aliveB w wd.cells (samples t) = false := Bool.eq_false_iff.mpr halv
      have hcs : cell_state wd (samples t).1 (samples t).2 = 0 := by
        rw [hstate, if_neg halv]
      obtain ⟨cs1, hset, hlen1, hb1, hI1, halive1, hother1⟩ :=
        set_cell_countInv hts.1 hts.2 hlen hb hI halv'
      obtain ⟨wd', hfold, hww', hwh', hlen', hb', hI', halive'⟩ :=
        ih (fun u hu => hbnd u (List.mem_cons_of_mem _ hu))
          { wd with cells := cs1 } hww hwh hlen1 hb1 hI1
      refine ⟨wd', ?_, hww', hwh', hlen', hb', hI', fun p h1 h2 => ?_⟩
      · have hred : (if cell_state wd (samples t).1 (samples t).2 = 0 then
            (set_cell w h wd.cells (samples t).1 (samples t).2).map
              (fun cs => { wd with cells := cs })
          else some wd) = some { wd with cells := cs1 } := by
          rw [if_pos hcs, hset]
          rfl
        rw [show (samples t) = ((samples t).1, (samples t).2) from rfl] at hred
        simp only [hred, Option.some_bind]
        exact hfold
      · rw [halive' p h1 h2, List.map_cons, List.mem_cons]
        show aliveB w cs1 p = true ∨ p ∈ List.map samples ts' ↔ _
        constructor
        · rintro (ha | hm)
          · by_cases hp : p = samples t
            · exact Or.inr (Or.inl hp)
            · have : aliveB w cs1 p = aliveB w wd.cells p := by
                have hne : p ≠ ((samples t).1, (samples t).2) := hp
                exact hother1 p h1 h2 hne
              rw [this] at ha
              exact Or.inl ha
          · exact Or.inr (Or.inr hm)
        · rintro (ha | hp | hm)
          · by_cases hp : p = samples t
            · subst hp
              exact Or.inl halive1
            · have hne : p ≠ ((samples t).1, (samples t).2) := hp
              rw [hother1 p h1 h2 hne]
              exact Or.inl ha
          · subst hp
            exact Or.inl halive1
          · exact Or.inr hm

/-- `World::random` with in-range samples: it succeeds, establishes the
exact count invariant, and its alive set is exactly the set of sampled
positions (duplicates absorbed). -/
theorem random_spec (w h : Nat) (samples : Nat → Nat × Nat)
    (hs : ∀ t < (h * w) / 2, (samples t).1 < h ∧ (samples t).2 < w) :
    ∃ wd, random w h samples = some wd ∧ wd.width = w ∧ wd.height = h ∧
      wd.cells.length = w * h ∧ Bounded wd.cells ∧ countInv w h wd.cells ∧
      (∀ p : Nat × Nat, p.1 < h → p.2 < w →
        (aliveB w wd.cells p = true ↔
          p ∈ (List.range ((h * w) / 2)).map samples)) := by
  obtain ⟨wd, hfold, hww, hwh, hlen, hb, hI, halive⟩ :=
    random_fold_spec samples (List.range ((h * w) / 2))
      (fun t ht => hs t (List.mem_range.mp ht))
      (World.new w h) rfl rfl
      (by
        show (List.replicate (w * h) (0 : Cell)).length = w * h
        rw [List.length_replicate])
      new_world_bounded
      new_world_countInv
  refine ⟨wd, hfold, hww, hwh, hlen, hb, hI, fun p h1 h2 => ?_⟩
  rw [halive p h1 h2, new_world_all_dead]
  constructor
  · rintro (ha | hm)
    · cases ha
    · exact hm
  · exact fun hm => Or.inr hm

/-- C9: immediately after `random` returns, before any `advance_generation`
call, the neighbour-count invariant already holds: seeding goes through
`set_cell`, which increments every in-bounds neighbour on each birth, and
during seeding every increment succeeds (a dead cell never has 8 alive
neighbours next to a cell being born). -/
theorem c9_random_establishes_invariant (w h : Nat) (samples : Nat → Nat × Nat)
    (hs : ∀ t < (h * w) / 2, (samples t).1 < h ∧ (samples t).2 < w) :
    ∃ wd, random w h samples = some wd ∧ countInv w h wd.cells ∧
      wd.width = w ∧ wd.height = h ∧ wd.cells.length = w * h := by
  obtain ⟨wd, h1, h2, h3, h4, h5, h6, h7⟩ := random_spec w h samples hs
  exact ⟨wd, h1, h6, h2, h3, h4⟩

theorem c9_random_establishes_invariant_witness :
    (∀ t < (3 * 3) / 2, (blinkSamples t).1 < 3 ∧ (blinkSamples t).2 < 3) ∧
    (∃ wd, random 3 3 blinkSamples = some wd ∧ countInv 3 3 wd.cells ∧
      wd.width = 3 ∧ wd.height = 3 ∧ wd.cells.length = 3 * 3) :=
  ⟨by decide, c9_random_establishes_invariant 3 3 blinkSamples (by decide)⟩

/-! Counting the alive cells produced by seeding. -/

theorem bool_eq_decide {b : Bool} {P : Prop} [Decidable P] (hiff : b = true ↔ P) :
    b = decide P := by
  rw [Bool.eq_iff_iff, decide_eq_true_eq]
  exact hiff

theorem filter_mem_length {l : List (Nat × Nat)} (hl : l.Nodup) :
    ∀ m : List (Nat × Nat), (∀ x ∈ m, x ∈ l) →
      (l.filter fun x => decide (x ∈ m)).length = m.dedup.length := by
  intro m
  induction m with
  | nil =>
    intro _
    have hconst : (l.filter fun x => decide (x ∈ ([] : List (Nat × Nat)))) =
        l.filter fun _ => false :=
      List.filter_congr (fun x _ => decide_eq_false (List.not_mem_nil x))
    rw [hconst, List.filter_false]
    rfl
  | cons a m' ih =>
    intro hm
    by_cases ham : a ∈ m'
    · rw [List.dedup_cons_of_mem ham, ← ih (fun x hx => hm x (List.mem_cons_of_mem _ hx))]
      refine congrArg List.length (List.filter_congr fun x _ => decide_eq_decide.mpr ?_)
      rw [List.mem_cons]
      constructor
      · rintro (rfl | hx)
        · exact ham
        · exact hx
      · exact Or.inr
    · rw [List.dedup_cons_of_not_mem ham]
      have ha_l : a ∈ l := hm a (List.mem_cons_self _ _)
      have hsucc := @filter_length_succ (Nat × Nat) l hl
        (fun x => decide (x ∈ m')) (fun x => decide (x ∈ a :: m')) a ha_l
        (decide_eq_false ham) (decide_eq_true (List.mem_cons_self a m'))
        (fun x hx hne => decide_eq_decide.mpr (by
          rw [List.mem_cons]
          constructor
          · exact Or.inr
          · rintro (rfl | hx2)
            · exact absurd rfl hne
            · exact hx2))
      rw [hsucc, ih (fun x hx => hm x (List.mem_cons_of_mem _ hx)), List.length_cons]

theorem foldlM_congr_fn {σ β : Type} (f g : σ → β → Option σ) :
    ∀ l : List β, (∀ s b, b ∈ l → f s b = g s b) → ∀ init : σ,
      List.foldlM f init l = List.foldlM g init l := by
  intro l
  induction l with
  | nil =>
    intro _ _
    rfl
  | cons b l ih =>
    intro hfg init
    rw [List.foldlM_cons, List.foldlM_cons, hfg init b (List.mem_cons_self _ _)]
    cases hgb : g init b with
    | none => rfl
    | some s1 =>
      show List.foldlM f s1 l = List.foldlM g s1 l
      exact ih (fun s b2 hb2 => hfg s b2 (List.mem_cons_of_mem _ hb2)) s1

/-- `random` reads its randomness source exactly on the draw indices
`0 .. (height*width)/2 - 1`: two sources agreeing there give identical
worlds — the loop makes exactly that many point draws. -/
theorem random_congr (w h : Nat) (s1 s2 : Nat → Nat × Nat)
    (hA : ∀ t < (h * w) / 2, s1 t = s2 t) : random w h s1 = random w h s2 := by
  unfold random
  refine foldlM_congr_fn _ _ (List.range ((h * w) / 2)) (fun wd t ht => ?_) (World.new w h)
  have ht' := hA t (List.mem_range.mp ht)
  show (if cell_state wd (s1 t).1 (s1 t).2 = 0 then
      (set_cell w h wd.cells (s1 t).1 (s1 t).2).map fun cs => { wd with cells := cs }
    else some wd) =
    (if cell_state wd (s2 t).1 (s2 t).2 = 0 then
      (set_cell w h wd.cells (s2 t).1 (s2 t).2).map fun cs => { wd with cells := cs }
    else some wd)
  rw [ht']

set_option maxHeartbeats 1000000 in
/-- C7: `random w h` makes exactly `(h*w)/2` point draws (it depends only
on the sample stream restricted to those indices), sets a drawn cell only
when its raw alive flag is clear, and therefore ends with exactly one
alive cell per DISTINCT drawn position: the alive count equals the number
of distinct draws, is at most `(h*w)/2`, equals it exactly when all draws
are distinct, and is strictly smaller when any position repeats. -/
theorem c7_random_underfill (w h : Nat) (samples : Nat → Nat × Nat)
    (hs : ∀ t < (h * w) / 2, (samples t).1 < h ∧ (samples t).2 < w) :
    ∃ wd, random w h samples = some wd ∧
      (∀ s2 : Nat → Nat × Nat, (∀ t < (h * w) / 2, samples t = s2 t) →
        random w h s2 = random w h samples) ∧
      (alivePositions w h wd.cells).length =
        ((List.range ((h * w) / 2)).map samples).dedup.length ∧
      (alivePositions w h wd.cells).length ≤ (h * w) / 2 ∧
      (((List.range ((h * w) / 2)).map samples).Nodup →
        (alivePositions w h wd.cells).length = (h * w) / 2) ∧
      (¬ ((List.range ((h * w) / 2)).map samples).Nodup →
        (alivePositions w h wd.cells).length < (h * w) / 2) := by
  obtain ⟨wd, hr, hww, hwh, hlen, hb, hI, halive⟩ := random_spec w h samples hs
  have hLb : ∀ x ∈ (List.range ((h * w) / 2)).map samples, x.1 < h ∧ x.2 < w := by
    intro x hx
    rcases List.mem_map.mp hx with ⟨t, ht, rfl⟩
    exact hs t (List.mem_range.mp ht)
  have hsub : ∀ x ∈ (List.range ((h * w) / 2)).map samples, x ∈ positions w h := by
    intro x hx
    exact mem_positions.mpr (hLb x hx)
  have hkey : alivePositions w h wd.cells =
      (positions w h).filter fun x =>
        decide (x ∈ (List.range ((h * w) / 2)).map samples) := by
    unfold alivePositions
    refine List.filter_congr fun p hp => ?_
    rcases mem_positions.mp hp with ⟨h1, h2⟩
    exact bool_eq_decide (halive p h1 h2)
  have hdl : (alivePositions w h wd.cells).length =
      ((List.range ((h * w) / 2)).map samples).dedup.length := by
    rw [hkey]
    exact filter_mem_length nodup_positions _ hsub
  have hlen_map : ((List.range ((h * w) / 2)).map samples).length = (h * w) / 2 := by
    rw [List.length_map, List.length_range]
  have hle : (alivePositions w h wd.cells).length ≤ (h * w) / 2 := by
    rw [hdl]
    have hsl := (List.dedup_sublist ((List.range ((h * w) / 2)).map samples)).length_le
    rw [hlen_map] at hsl
    exact hsl
  refine ⟨wd, hr, ?_, hdl, hle, ?_, ?_⟩
  · intro s2 hA
    exact random_congr w h s2 samples (fun t ht => (hA t ht).symm)
  · intro hnd
    rw [hdl, List.dedup_eq_self.mpr hnd, hlen_map]
  · intro hnd
    rcases Nat.lt_or_ge (alivePositions w h wd.cells).length ((h * w) / 2) with hlt | hge
    · exact hlt
    · exfalso
      have heq : ((List.range ((h * w) / 2)).map samples).dedup.length =
          ((List.range ((h * w) / 2)).map samples).length := by
        rw [hlen_map]
        omega
      have hEqL := (List.dedup_sublist ((List.range ((h * w) / 2)).map samples)).eq_of_length_le
        (by omega)
      exact hnd (hEqL ▸ List.nodup_dedup ((List.range ((h * w) / 2)).map samples))

theorem c7_random_underfill_witness :
    (∀ t < (3 * 3) / 2, (blinkSamples t).1 < 3 ∧ (blinkSamples t).2 < 3) ∧
    (∃ wd, random 3 3 blinkSamples = some wd ∧
      (∀ s2 : Nat → Nat × Nat, (∀ t < (3 * 3) / 2, blinkSamples t = s2 t) →
        random 3 3 s2 = random 3 3 blinkSamples) ∧
      (alivePositions 3 3 wd.cells).length =
        ((List.range ((3 * 3) / 2)).map blinkSamples).dedup.length ∧
      (alivePositions 3 3 wd.cells).length ≤ (3 * 3) / 2 ∧
      (((List.range ((3 * 3) / 2)).map blinkSamples).Nodup →
        (alivePositions 3 3 wd.cells).length = (3 * 3) / 2) ∧
      (¬ ((List.range ((3 * 3) / 2)).map blinkSamples).Nodup →
        (alivePositions 3 3 wd.cells).length < (3 * 3) / 2)) :=
  ⟨by decide, c7_random_underfill 3 3 blinkSamples (by decide)⟩

end Life
